import Mathlib

/-!
Shallow embedding of the Eldora virtual-DOM engine.

The definitions below are translated from the repository's source:
* `render`, `normalizeChildren`, `eldoraJSX` / `parseJSXToEldoraNode`, `diff`,
  `diffPrimitive` (inlined in `diff`), `diffFunction` (inlined in `diff`),
  `diffElement` (inlined in `diff`), `diffChildren`, `diffProps`,
  `domChildSwap` come from the keyed dom module (`dom.ts`).
* `App.dispatch` / `App.renderView` (here `dispatch` / `renderView` over a
  `World`) and `useRef` come from `core.ts`.

Modelling conventions:
* JavaScript values appearing in props are modelled by `Value`.  Objects and
  functions carry a `ref : Nat` standing for their object identity; JS strict
  equality (`===` / `!==`) is reference equality on objects and value equality
  on primitives, modelled by `strictEq`.
* DOM nodes are modelled by `DNode`; every node carries a numeric `id` standing
  for its object identity (`===` on DOM nodes compares ids).
* `AbortController`s ("listener-lifetime tokens") are numeric ids drawn from a
  fresh counter in `St`; aborting is recorded in the effect trace and removes
  the listeners registered under that token on the element being diffed (the
  code only ever registers a controller's signal on the element owning it).
* Recursion through component functions is not structurally bounded in the
  source, so every recursive routine takes a fuel parameter and returns
  `Option`/`none` on exhaustion; `none` also models thrown exceptions
  (e.g. `removeChild` on a missing child).
* `JSON.stringify`-and-compare is modelled by `toJson` / `jsonEq`: function-
  and `undefined`-valued fields are dropped, field order is significant.
-/

namespace Eldora

/-- JavaScript values stored in virtual-node props.  `ref` fields stand for
object identity (two structurally equal objects built separately have
different `ref`s). -/
inductive Value where
  | vUndef
  | vNull
  | vStr (s : String)
  | vNum (n : Int)
  | vBool (b : Bool)
  | vFun (ref : Nat)
  | vStyle (ref : Nat) (decls : List (String × String))
  | vObj (ref : Nat) (fields : List (String × Value))
deriving Repr

/-- JavaScript truthiness. -/
def truthy : Value → Bool
  | .vUndef => false
  | .vNull => false
  | .vStr s => s != ""
  | .vNum n => n != 0
  | .vBool b => b
  | .vFun _ => true
  | .vStyle _ _ => true
  | .vObj _ _ => true

/-- JavaScript strict equality `===`: value equality on primitives, reference
equality on objects and functions. -/
def strictEq : Value → Value → Bool
  | .vUndef, .vUndef => true
  | .vNull, .vNull => true
  | .vStr a, .vStr b => a == b
  | .vNum a, .vNum b => a == b
  | .vBool a, .vBool b => a == b
  | .vFun a, .vFun b => a == b
  | .vStyle a _, .vStyle b _ => a == b
  | .vObj a _, .vObj b _ => a == b
  | _, _ => false

/-- JavaScript `String(value)` coercion. -/
def jsString : Value → String
  | .vUndef => "undefined"
  | .vNull => "null"
  | .vStr s => s
  | .vNum n => toString n
  | .vBool b => if b then "true" else "false"
  | .vFun r => "function " ++ toString r
  | .vStyle _ _ => "[object Object]"
  | .vObj _ _ => "[object Object]"

/-- JSON values, for modelling `JSON.stringify`-based comparisons. -/
inductive JsonV where
  | jNull
  | jStr (s : String)
  | jNum (n : Int)
  | jBool (b : Bool)
  | jObj (fields : List (String × JsonV))
deriving Repr

/-- Structural equality of JSON values (equality of the stringified form:
field order matters, exactly as for `JSON.stringify`). -/
def jsonEq : JsonV → JsonV → Bool
  | .jNull, .jNull => true
  | .jStr a, .jStr b => a == b
  | .jNum a, .jNum b => a == b
  | .jBool a, .jBool b => a == b
  | .jObj fs, .jObj gs => fieldsEq fs gs
  | _, _ => false
where fieldsEq : List (String × JsonV) → List (String × JsonV) → Bool
  | [], [] => true
  | (k1, v1) :: r1, (k2, v2) :: r2 => k1 == k2 && jsonEq v1 v2 && fieldsEq r1 r2
  | _, _ => false

/-- `JSON.stringify` of a value; `none` models values stringify drops
(`undefined` and functions, which vanish from objects). -/
def toJson : Value → Option JsonV
  | .vUndef => none
  | .vFun _ => none
  | .vNull => some .jNull
  | .vStr s => some (.jStr s)
  | .vNum n => some (.jNum n)
  | .vBool b => some (.jBool b)
  | .vStyle _ ds => some (.jObj (ds.map fun d => (d.1, .jStr d.2)))
  | .vObj _ fs => some (.jObj (fieldsJson fs))
where fieldsJson : List (String × Value) → List (String × JsonV)
  | [] => []
  | (k, v) :: r =>
      match toJson v with
      | none => fieldsJson r
      | some j => (k, j) :: fieldsJson r

/-- `JSON.stringify(a) === JSON.stringify(b)` on two values. -/
def jsonValEq (a b : Value) : Bool :=
  match toJson a, toJson b with
  | none, none => true
  | some x, some y => jsonEq x y
  | _, _ => false

/-- A props record: an ordered association list, standing for a JS object
(keys unique in any object produced by JS). -/
abbrev Props := List (String × Value)

/-- Reading a property of a JS object: `undefined` when absent. -/
def propGet (p : Props) (k : String) : Value :=
  match p.find? (fun e => e.1 == k) with
  | some e => e.2
  | none => .vUndef

def propKeys (p : Props) : List String := p.map Prod.fst

/-- `JSON.stringify` of a props object. -/
def jsonOfProps (p : Props) : JsonV := .jObj (toJson.fieldsJson p)

/-- The `JSON.stringify(old.props) === JSON.stringify(new.props)` check used
by the lazy-component rule. -/
def jsonPropsEq (p q : Props) : Bool := jsonEq (jsonOfProps p) (jsonOfProps q)

/-- Virtual nodes (`VPrimitive` / `VElement` / `VFunction` of `core.ts`).
`controller` is the element's listener-lifetime token (`AbortController`),
`topNode` the component's stored expansion. -/
inductive VNode where
  | vPrim (value : Value) (key : Option String)
  | vElem (tag : String) (props : Props) (children : List VNode)
      (controller : Nat) (key : Option String)
  | vFunc (fnRef : Nat) (props : Props) (topNode : Option VNode)
      (key : Option String)
deriving Repr

def keyOf : VNode → Option String
  | .vPrim _ k => k
  | .vElem _ _ _ _ k => k
  | .vFunc _ _ _ k => k

/-- Truthiness of `node.key` (a key that is the empty string is falsy). -/
def keyTruthy : Option String → Bool
  | some s => s != ""
  | none => false

def keyStr (o : Option String) : String := o.getD ""

/-- The `needsReplacement` test of `diffChildren`: different kind, or both
elements with different tags, or both components with different function
references. -/
def needsRepl : VNode → VNode → Bool
  | .vPrim _ _, .vPrim _ _ => false
  | .vElem t1 _ _ _ _, .vElem t2 _ _ _ _ => t1 != t2
  | .vFunc r1 _ _ _, .vFunc r2 _ _ _ => r1 != r2
  | _, _ => true

/-- Render-target (DOM) nodes.  `id` stands for node object identity.
A listener entry is `(native event name, handler value, signal token)`. -/
inductive DNode where
  | dText (id : Nat) (text : String)
  | dElem (id : Nat) (tag : String) (attrs : List (String × String))
      (style : List (String × String)) (val : String) (chk : Bool)
      (listeners : List (String × Value × Nat)) (children : List DNode)
deriving Repr

def DNode.dId : DNode → Nat
  | .dText i _ => i
  | .dElem i _ _ _ _ _ _ _ => i

/-- `setAttribute` / style-declaration write on an ordered attribute map:
overwrites the existing entry in place or appends a new one. -/
def setAttr : List (String × String) → String → String → List (String × String)
  | [], k, v => [(k, v)]
  | (k', v') :: rest, k, v =>
      if k' == k then (k, v) :: rest else (k', v') :: setAttr rest k v

def attrLookup (a : List (String × String)) (k : String) : Option String :=
  (a.find? (fun e => e.1 == k)).map Prod.snd

/-- Assigning a list of declarations onto a style map in order
(`Object.assign` semantics: last write per name wins, other names kept). -/
def assignDecls : List (String × String) → List (String × String) → List (String × String)
  | base, [] => base
  | base, d :: ds => assignDecls (setAttr base d.1 d.2) ds

/-- `Object.assign(element.style, value)`.  Primitive values have no own
enumerable string-keyed entries that matter here and leave the style alone. -/
def objAssignStyle (base : List (String × String)) : Value → List (String × String)
  | .vStyle _ ds => assignDecls base ds
  | .vObj _ fs => assignDecls base (fs.map fun f => (f.1, jsString f.2))
  | _ => base

/-- Observable side effects, recorded in a trace: token invalidation
(`controller.abort()`), token creation (`new AbortController`), listener
registration (`addEventListener` with a signal), component invocation. -/
inductive Eff where
  | abortTok (t : Nat)
  | mkTok (t : Nat)
  | addListener (elem : Nat) (event : String) (handler : Value) (tok : Nat)
  | invokeFn (r : Nat) (props : Props)
deriving Repr

def Eff.isAbort : Eff → Bool
  | .abortTok _ => true
  | _ => false

def Eff.abortsTok : Eff → Nat → Bool
  | .abortTok u, t => u == t
  | _, _ => false

def Eff.isInvoke : Eff → Bool
  | .invokeFn _ _ => true
  | _ => false

/-- Allocation state: a fresh-id counter (for DOM nodes and tokens) and the
effect trace accumulated so far. -/
structure St where
  fresh : Nat
  trace : List Eff
deriving Repr

/-- Well-formed state: ids at or above the counter are unused, in particular
never aborted. -/
def WFSt (st : St) : Prop :=
  ∀ t, st.fresh ≤ t → ∀ e ∈ st.trace, Eff.abortsTok e t = false

/-- A `Map<string, number>` with JS insertion-order semantics. -/
abbrev KMap := List (String × Nat)

def kset : KMap → String → Nat → KMap
  | [], k, v => [(k, v)]
  | (k', v') :: rest, k, v =>
      if k' == k then (k, v) :: rest else (k', v') :: kset rest k v

def kget (m : KMap) (k : String) : Option Nat :=
  (m.find? (fun e => e.1 == k)).map Prod.snd

def khas (m : KMap) (k : String) : Bool := (kget m k).isSome

def kdel (m : KMap) (k : String) : KMap := m.filter (fun e => e.1 != k)

/-- The key map built by `forEach((child, i) => child.key && map.set(child.key, i))`. -/
def buildKM (cs : List VNode) : KMap := go cs 0 []
where go : List VNode → Nat → KMap → KMap
  | [], _, m => m
  | c :: r, i, m =>
      go r (i + 1) (if keyTruthy (keyOf c) then kset m (keyStr (keyOf c)) i else m)

/-- Iteration order of `new Set(a.concat(b))`: first occurrences, in order. -/
def dedupFirst : List String → List String
  | [] => []
  | k :: r => k :: dedupFirst (r.filter (fun x => x != k))
termination_by l => l.length
decreasing_by
  simp only [List.length_cons]
  exact Nat.lt_succ_of_le (List.length_filter_le _ _)

/-- `key.startsWith('on')`.  (Written over the character list so that the
kernel can evaluate it; semantically identical to `String.startsWith "on"`.) -/
def startsOn (k : String) : Bool := k.toList.take 2 == ['o', 'n']

/-- The derived native event name: `key.slice(2).toLowerCase()`.  (Written
over the character list for kernel computability.) -/
def evName (k : String) : String := ⟨(k.toList.drop 2).map Char.toLower⟩

/-- Accumulator for a pass over an element's props: the element's mutable
attribute/style/property/listener state plus the effects emitted. -/
structure PAcc where
  attrs : List (String × String)
  style : List (String × String)
  val : String
  chk : Bool
  listeners : List (String × Value × Nat)
  trace : List Eff
deriving Repr

/-- One prop applied during `render`'s `Object.entries(props).forEach` switch:
`style`, `className`, `value`, `checked`, then `on*` listeners, then generic
`setAttribute(key, String(value))`. -/
def renderStep (eid ctrl : Nat) (acc : PAcc) (kv : String × Value) : PAcc :=
  if kv.1 == "style" then { acc with style := objAssignStyle acc.style kv.2 }
  else if kv.1 == "className" then
    { acc with attrs := setAttr acc.attrs "class" (jsString kv.2) }
  else if kv.1 == "value" then { acc with val := jsString kv.2 }
  else if kv.1 == "checked" then { acc with chk := truthy kv.2 }
  else if startsOn kv.1 then
    { acc with listeners := acc.listeners ++ [(evName kv.1, kv.2, ctrl)],
               trace := acc.trace ++ [.addListener eid (evName kv.1) kv.2 ctrl] }
  else { acc with attrs := setAttr acc.attrs kv.1 (jsString kv.2) }

/-- The element state produced by applying all props at render time to a
freshly created element. -/
def renderAcc (eid ctrl : Nat) (props : Props) : PAcc :=
  props.foldl (renderStep eid ctrl) ⟨[], [], "", false, [], []⟩

/-- The environment of component functions: `fnRef ↦ (props ↦ element tree)`. -/
abbrev CompEnv := Nat → Props → VNode

mutual

/-- `render(node)`: creates a fresh render-target node; components are
invoked and their expansion stored in `topNode`.  Returns the mutated
virtual node, the new DOM node, and the updated state. -/
def render (env : CompEnv) : Nat → VNode → St → Option (VNode × DNode × St)
  | 0, _, _ => none
  | Nat.succ _, .vPrim v k, st =>
      some (.vPrim v k, .dText st.fresh (jsString v), ⟨st.fresh + 1, st.trace⟩)
  | Nat.succ fuel, .vElem tag props cs ctrl k, st =>
      let eid := st.fresh
      let acc := renderAcc eid ctrl props
      match renderList env fuel cs ⟨st.fresh + 1, st.trace ++ acc.trace⟩ with
      | none => none
      | some (cs', ds, st') =>
          some (.vElem tag props cs' ctrl k,
                .dElem eid tag acc.attrs acc.style acc.val acc.chk acc.listeners ds,
                st')
  | Nat.succ fuel, .vFunc r p _ k, st =>
      match render env fuel (env r p) ⟨st.fresh, st.trace ++ [.invokeFn r p]⟩ with
      | none => none
      | some (t', d, st') => some (.vFunc r p (some t') k, d, st')

/-- `children.forEach(child => element.appendChild(render(child)))`. -/
def renderList (env : CompEnv) : Nat → List VNode → St → Option (List VNode × List DNode × St)
  | 0, _, _ => none
  | Nat.succ _, [], st => some ([], [], st)
  | Nat.succ fuel, c :: cs, st =>
      match render env fuel c st with
      | none => none
      | some (c', d, st') =>
          match renderList env fuel cs st' with
          | none => none
          | some (cs', ds, st'') => some (c' :: cs', d :: ds, st'')

end

/-- One key of the union processed by `diffProps`' `keys.forEach` body. -/
def dpStep (eid ctrl' : Nat) (op np : Props) (acc : PAcc) (k : String) : PAcc :=
  let ov := propGet op k
  let nv := propGet np k
  if startsOn k then
    if truthy nv then
      { acc with listeners := acc.listeners ++ [(evName k, nv, ctrl')],
                 trace := acc.trace ++ [.addListener eid (evName k) nv ctrl'] }
    else acc
  else if k == "className" then
    if strictEq ov nv then acc
    else { acc with attrs := setAttr acc.attrs "class" (jsString nv) }
  else if k == "style" then
    if jsonValEq ov nv then acc
    else { acc with style := objAssignStyle acc.style nv }
  else if strictEq ov nv then acc
  else if k == "checked" then { acc with chk := truthy nv }
  else if k == "value" then { acc with val := jsString nv }
  else { acc with attrs := setAttr acc.attrs k (jsString nv) }

/-- `diffProps(oldNode, newNode, element)`: aborts the old token, installs a
fresh one, walks the union of old and new keys, and finally replaces
`old.props` by `new.props`.  `none` models the type-cast violations (the
source casts `oldVNode as VElement`, `element as HTMLElement`). -/
def diffProps (old new_ : VNode) (d : DNode) (st : St) : Option (VNode × DNode × St) :=
  match old, new_, d with
  | .vElem t op cs ctrl k, .vElem _ np _ _ _, .dElem eid dt da dsty dv dc dls dkids =>
      let keys := dedupFirst (propKeys op ++ propKeys np)
      let ctrl' := st.fresh
      let acc0 : PAcc := ⟨da, dsty, dv, dc, dls.filter (fun l => l.2.2 != ctrl), []⟩
      let acc := keys.foldl (dpStep eid ctrl' op np) acc0
      some (.vElem t np cs ctrl' k,
            .dElem eid dt acc.attrs acc.style acc.val acc.chk acc.listeners dkids,
            ⟨st.fresh + 1, st.trace ++ [.abortTok ctrl, .mkTok ctrl'] ++ acc.trace⟩)
  | _, _, _ => none

/-- Insert `node` into the sibling list before `ref` (`none` = append),
first detaching `node` from its current position — DOM `insertBefore`.
Fails (like the DOM) if `ref` is not among the remaining siblings. -/
def insBeforeId (rid : Nat) (node : DNode) : List DNode → List DNode
  | [] => [node]
  | x :: xs => if x.dId == rid then node :: x :: xs else x :: insBeforeId rid node xs

def insertBefore (ds : List DNode) (node : DNode) (ref : Option DNode) :
    Option (List DNode) :=
  match ref with
  | none => some (ds.filter (fun x => x.dId != node.dId) ++ [node])
  | some r =>
      let rest := ds.filter (fun x => x.dId != node.dId)
      if rest.any (fun x => x.dId == r.dId) then some (insBeforeId r.dId node rest)
      else none

/-- `domChildSwap(parent, destination, from)` on the parent's child list. -/
def domChildSwap (ds : List DNode) (dest from_ : Nat) : Option (List DNode) := do
  let fromEl ← ds[from_]?
  let destEl ← ds[dest]?
  let fromNext := ds[from_ + 1]?
  let destNext := ds[dest + 1]?
  if (match fromNext with | some x => x.dId == destEl.dId | none => false) then
    insertBefore ds destEl (some fromEl)
  else if (match destNext with | some x => x.dId == fromEl.dId | none => false) then
    insertBefore ds fromEl (some destEl)
  else do
    let ds1 ← insertBefore ds fromEl destNext
    insertBefore ds1 destEl fromNext

/-- The destructuring swap `[a[i], a[j]] = [a[j], a[i]]` (identity when an
index is out of range; the source never reaches that case on the executions
modelled here). -/
def listSwap {α : Type} (l : List α) (i j : Nat) : List α :=
  match l[i]?, l[j]? with
  | some a, some b => (l.set i b).set j a
  | _, _ => l

/-- The first loop of `diffChildren`: splice out every keyed old child whose
key is absent from the new key map (removing the matching render-target
child), and refresh the old key map's index for every kept keyed child.
`vs`/`ds` are the old children and the parent's DOM children from the current
position on; `i` counts the kept children. -/
def removeAbsent (nkm : KMap) : List VNode → List DNode → KMap → Nat →
    Option (List VNode × List DNode × KMap)
  | [], ds, okm, _ => some ([], ds, okm)
  | v :: vs, ds, okm, i =>
      if keyTruthy (keyOf v) && !(khas nkm (keyStr (keyOf v))) then
        match ds with
        | [] => none
        | _ :: ds' => removeAbsent nkm vs ds' okm i
      else
        let okm' := if keyTruthy (keyOf v) then kset okm (keyStr (keyOf v)) i else okm
        match ds with
        | [] =>
            match removeAbsent nkm vs [] okm' (i + 1) with
            | none => none
            | some (vs', ds', okm'') => some (v :: vs', ds', okm'')
        | dh :: dt =>
            match removeAbsent nkm vs dt okm' (i + 1) with
            | none => none
            | some (vs', ds', okm'') => some (v :: vs', dh :: ds', okm'')

/-- The trailing-removal pass: `removedCount` times remove the parent's last
DOM child and pop the old sequence. -/
def trailing : Nat → List VNode → List DNode → Option (List VNode × List DNode)
  | 0, vs, ds => some (vs, ds)
  | Nat.succ n, vs, ds =>
      if ds.isEmpty then none
      else trailing n vs.dropLast ds.dropLast

/-- The empty-old special case of `diffChildren`: render and append every new
child, pushing it onto the old sequence. -/
def appendNew (env : CompEnv) (fuel : Nat) : List VNode → List DNode → St →
    Option (List VNode × List DNode × St)
  | [], acc, st => some ([], acc, st)
  | c :: cs, acc, st =>
      match render env fuel c st with
      | none => none
      | some (c', d, st') =>
          match appendNew env fuel cs (acc ++ [d]) st' with
          | none => none
          | some (cs', acc', st'') => some (c' :: cs', acc', st'')

mutual

/-- `diff(oldVNode, newVNode, element)`: dispatch on the new node's kind.
The primitive and function cases inline `diffPrimitive` and `diffFunction`;
the element case inlines `diffElement` (`diffProps` then `diffChildren`).
`none` models exhausted fuel and the source's cast violations. -/
def diff (env : CompEnv) : Nat → VNode → VNode → DNode → St →
    Option (VNode × DNode × St)
  | 0, _, _, _, _ => none
  | Nat.succ fuel, old, new_, d, st =>
      match new_ with
      | .vPrim nv _ =>
          match old, d with
          | .vPrim ov ok, .dText tid ts =>
              if strictEq ov nv then some (.vPrim ov ok, .dText tid ts, st)
              else some (.vPrim nv ok, .dText tid (jsString nv), st)
          | _, _ => none
      | .vElem _ np ncs _ _ =>
          match diffProps old new_ d st with
          | some (.vElem t1 p1 cs1 ctrl1 k1, d1, st1) =>
              match diffChildren env fuel cs1 ncs d1 st1 with
              | none => none
              | some (cs', d2, st2) => some (.vElem t1 p1 cs' ctrl1 k1, d2, st2)
          | _ => none
      | .vFunc nr np _ _ =>
          match old with
          | .vFunc or_ op otop ok =>
              if truthy (propGet op "lazy") && jsonPropsEq op np then
                some (.vFunc or_ op otop ok, d, st)
              else
                match otop with
                | none => none
                | some ot =>
                    match diff env fuel ot (env nr np) d
                        ⟨st.fresh, st.trace ++ [.invokeFn nr np]⟩ with
                    | none => none
                    | some (t', d', st') => some (.vFunc or_ np (some t') ok, d', st')
          | _ => none
termination_by fuel a b c d => (fuel, 0)

/-- `diffChildren(oldChildren, newChildren, parentDOM)`.  Returns the
reordered/updated old sequence and the mutated parent. -/
def diffChildren (env : CompEnv) : Nat → List VNode → List VNode → DNode → St →
    Option (List VNode × DNode × St)
  | 0, _, _, _, _ => none
  | Nat.succ fuel, oldCs, newCs, parent, st =>
      match parent with
      | .dElem pid pt pa psty pv pc pls pkids =>
          if oldCs.length == 0 then
            match appendNew env fuel newCs pkids st with
            | none => none
            | some (added, pkids', st') =>
                some (added, .dElem pid pt pa psty pv pc pls pkids', st')
          else if newCs.length == 0 then
            some ([], .dElem pid pt pa psty pv pc pls [], st)
          else
            match removeAbsent (buildKM newCs) oldCs pkids (buildKM oldCs) 0 with
            | none => none
            | some (vs1, ds1, okm1) =>
                match mainLoop env fuel 0 vs1 newCs ds1 okm1 0 st with
                | none => none
                | some (vs2, ds2, removed, st2) =>
                    match trailing removed vs2 ds2 with
                    | none => none
                    | some (vs3, ds3) =>
                        some (vs3, .dElem pid pt pa psty pv pc pls ds3, st2)
      | _ => none
termination_by fuel a b c d => (fuel, 0)

/-- The main `for (i = 0; i < Math.max(old.length, new.length); i++)` loop of
`diffChildren`, threading the old sequence `vs`, the parent's DOM children
`ds`, the old key map and the trailing-removal tally. -/
def mainLoop (env : CompEnv) : Nat → Nat → List VNode → List VNode →
    List DNode → KMap → Nat → St → Option (List VNode × List DNode × Nat × St)
  | 0, _, _, _, _, _, _, _ => none
  | Nat.succ fuel, i, vs, ns, ds, okm, removed, st =>
      if i < max vs.length ns.length then
        match ns[i]? with
        | none => mainLoop env fuel (i + 1) vs ns ds okm (removed + 1) st
        | some newChild =>
            match vs[i]? with
            | none =>
                match render env fuel newChild st with
                | none => none
                | some (nv, nd, st') =>
                    mainLoop env fuel (i + 1) (vs ++ [nv]) ns (ds ++ [nd]) okm removed st'
            | some oldChild =>
                match (if keyTruthy (keyOf newChild) then
                         kget okm (keyStr (keyOf newChild)) else none) with
                | some j =>
                    if j ≠ i then
                      let okm1 := if keyTruthy (keyOf oldChild) then
                          kset okm (keyStr (keyOf oldChild)) j else okm
                      match domChildSwap ds i j with
                      | none => none
                      | some ds1 =>
                          let vs1 := listSwap vs i j
                          match vs1[i]?, ds1[i]? with
                          | some vi, some di =>
                              match diff env fuel vi newChild di st with
                              | none => none
                              | some (v', d', st') =>
                                  mainLoop env fuel (i + 1) (vs1.set i v') ns
                                    (ds1.set i d') okm1 removed st'
                          | _, _ => none
                    else loopRest env fuel i vs ns ds okm removed st oldChild newChild
                | none => loopRest env fuel i vs ns ds okm removed st oldChild newChild
      else some (vs, ds, removed, st)
termination_by fuel i vs ns ds okm removed st => (fuel, 0)

/-- The shared tail of a loop iteration: delete the old child's key from the
old key map, then replace (render fresh + `replaceChild`) when
`needsReplacement`, else recursively diff the aligned pair. -/
def loopRest (env : CompEnv) (fuel : Nat) (i : Nat) (vs ns : List VNode)
    (ds : List DNode) (okm : KMap) (removed : Nat) (st : St)
    (oldChild newChild : VNode) : Option (List VNode × List DNode × Nat × St) :=
  let okm1 := if keyTruthy (keyOf oldChild) then kdel okm (keyStr (keyOf oldChild)) else okm
  if needsRepl oldChild newChild then
    match render env fuel newChild st with
    | none => none
    | some (nv, nd, st') =>
        if i < ds.length then
          mainLoop env fuel (i + 1) (vs.set i nv) ns (ds.set i nd) okm1 removed st'
        else none
  else
    match ds[i]? with
    | none => none
    | some di =>
        match diff env fuel oldChild newChild di st with
        | none => none
        | some (v', d', st') =>
            mainLoop env fuel (i + 1) (vs.set i v') ns (ds.set i d') okm1 removed st'
termination_by (fuel, 1)

end

/-- A child passed in a JSX props bag: a virtual node or a bare scalar. -/
inductive Child where
  | node (n : VNode)
  | str (s : String)
  | num (i : Int)
deriving Repr

/-- The `children` entry of a props bag: a single child or an array.
(`Value` cannot nest virtual nodes, so the `children` entry of the JS props
object is modelled as this separate field of `Bag`.) -/
inductive ChildrenArg where
  | one (c : Child)
  | many (cs : List Child)
deriving Repr

/-- The props bag received by the tree constructor: the `children` entry is
held apart from the other entries (see `ChildrenArg`). -/
structure Bag where
  entries : Props
  children : Option ChildrenArg
deriving Repr

/-- Falsiness of a bare child (`if (!children) return []`). -/
def childFalsy : Child → Bool
  | .str s => s == ""
  | .num i => i == 0
  | .node _ => false

/-- Wrapping a bare scalar child into a fresh primitive node. -/
def normChild : Child → VNode
  | .node n => n
  | .str s => .vPrim (.vStr s) none
  | .num i => .vPrim (.vNum i) none

/-- `normalizeChildren(children)`. -/
def normalizeChildren : Option ChildrenArg → List VNode
  | none => []
  | some (.one c) => if childFalsy c then [] else [normChild c]
  | some (.many cs) => cs.map normChild

/-- `parseJSXToEldoraNode(type, props, key)`; the first argument is a JS
value (`typeof` dispatch).  `Except.error` models the thrown
`Error('Invalid JSX node')`. -/
def parseJSXToEldoraNode (t : Value) (bag : Bag) (key : Option String) (st : St) :
    Except String (VNode × St) :=
  match t with
  | .vFun r => .ok (.vFunc r bag.entries none key, st)
  | .vStr s =>
      .ok (.vElem s bag.entries (normalizeChildren bag.children) st.fresh key,
           ⟨st.fresh + 1, st.trace ++ [.mkTok st.fresh]⟩)
  | _ => .error "Invalid JSX node"

/-- `eldoraJSX` just forwards to the parser. -/
def eldoraJSX (t : Value) (bag : Bag) (key : Option String) (st : St) :
    Except String (VNode × St) :=
  parseJSXToEldoraNode t bag key st

/-- Look a DOM node up by identity inside a tree (document order). -/
def findNode (nid : Nat) : DNode → Option DNode
  | .dText i s => if i == nid then some (.dText i s) else none
  | .dElem i t a sty v c ls kids =>
      if i == nid then some (.dElem i t a sty v c ls kids) else goKids kids
where goKids : List DNode → Option DNode
  | [] => none
  | k :: ks =>
      match findNode nid k with
      | some r => some r
      | none => goKids ks

def findNodeList (nid : Nat) : List DNode → Option DNode
  | [] => none
  | d :: ds =>
      match findNode nid d with
      | some r => some r
      | none => findNodeList nid ds

/-- `element.id`: the `id` attribute, `""` when absent (or on a text node). -/
def idAttr : DNode → String
  | .dText _ _ => ""
  | .dElem _ _ a _ _ _ _ _ => (attrLookup a "id").getD ""

/-- `document.getElementById`, searching the app's render target in document
order. -/
def getByIdNode (s : String) : DNode → Option DNode
  | .dText _ _ => none
  | .dElem i t a sty v c ls kids =>
      if (attrLookup a "id").getD "" == s then some (.dElem i t a sty v c ls kids)
      else goKids kids
where goKids : List DNode → Option DNode
  | [] => none
  | k :: ks =>
      match getByIdNode s k with
      | some r => some r
      | none => goKids ks

def getById (s : String) : List DNode → Option DNode
  | [] => none
  | d :: ds =>
      match getByIdNode s d with
      | some r => some r
      | none => getById s ds

/-- The state an `App` instance owns, together with the modelled document:
`container` is the mount point's child list, `active` the identity of the
currently focused element (`document.activeElement`, `none` = null). -/
structure World (M : Type) where
  model : M
  previous : Option VNode
  previousElement : Option DNode
  container : List DNode
  focusedElementId : Option String
  active : Option Nat
  st : St

/-- `App.renderView`: first mount renders and replaces the container's
content (and returns early, without focus restoration); otherwise diff the
previous tree and re-focus the captured identifier when one was recorded. -/
def renderView {M : Type} (env : CompEnv) (fuel : Nat) (view : M → VNode)
    (w : World M) : Option (World M) :=
  let cur := view w.model
  match w.previous, w.previousElement with
  | some prev, some prevEl =>
      match diff env fuel prev cur prevEl w.st with
      | none => none
      | some (prev', el', st') =>
          let w1 : World M :=
            { w with previous := some prev', previousElement := some el',
                     container := [el'], st := st' }
          match w1.focusedElementId with
          | some s =>
              if s != "" then
                match getById s w1.container with
                | some e => some { w1 with active := some e.dId }
                | none => some w1
              else some w1
          | none => some w1
  | _, _ =>
      match render env fuel cur w.st with
      | none => none
      | some (cur', el, st') =>
          some { w with previous := some cur', previousElement := some el,
                        container := [el], st := st' }

/-- `App.dispatch(msg)`: capture the focused element's identifier (when an
element is focused), update the model, re-render. -/
def dispatch {M Msg : Type} (env : CompEnv) (fuel : Nat) (view : M → VNode)
    (update : M → Msg → M) (w : World M) (msg : Msg) : Option (World M) :=
  let fid : Option String :=
    match w.active with
    | some nid =>
        match findNodeList nid w.container with
        | some e => some (idAttr e)
        | none => some ""
    | none => w.focusedElementId
  renderView env fuel view
    { w with focusedElementId := fid, model := update w.model msg }

/-- Observable shape of a render-target node: everything a user can tell
apart — identity, tag, attributes, style, live `value`/`checked`, the
`(event, handler)` pairs that can fire (a falsy handler never fires and is
dropped), and the child structure in order.  Listener-lifetime token ids are
not observable. -/
inductive ObsT where
  | text (id : Nat) (s : String)
  | elem (id : Nat) (tag : String) (attrs : List (String × String))
      (style : List (String × String)) (val : String) (chk : Bool)
      (handlers : List (String × Value)) (children : List ObsT)
deriving Repr

def obsListeners (ls : List (String × Value × Nat)) : List (String × Value) :=
  (ls.filter (fun l => truthy l.2.1)).map (fun l => (l.1, l.2.1))

def obs : DNode → ObsT
  | .dText i s => .text i s
  | .dElem i t a sty v c ls kids => .elem i t a sty v c (obsListeners ls) (obsList kids)
where obsList : List DNode → List ObsT
  | [] => []
  | k :: ks => obs k :: obsList ks

/-- One entry of a structurally equal props copy: same key; handler and other
values identical (JS `===`, i.e. equal as `Value`s including object identity),
except that a `style` entry may be a structurally equal copy (same
stringification, possibly a different object). -/
def pentry (a b : String × Value) : Prop :=
  a.1 = b.1 ∧ (if a.1 = "style" then toJson a.2 = toJson b.2 else a.2 = b.2)

/-- "Equal props" in the sense of the idempotence property: entry lists of
the same shape related by `pentry`. -/
def PropsCoreEq (p q : Props) : Prop := List.Forall₂ pentry p q

/-- `CoreEq v w`: `w` is a structurally equal copy of `v` — equal primitive
values, equal keys, same kinds/tags/function references position by position,
props related by `PropsCoreEq`.  Controllers and stored expansions (fields a
freshly built tree does not share) are unconstrained. -/
inductive CoreEq : VNode → VNode → Prop where
  | prim : ∀ v k, CoreEq (.vPrim v k) (.vPrim v k)
  | elem : ∀ t p q cs ds c c' k, PropsCoreEq p q → cs.length = ds.length →
      (∀ i (h1 : i < cs.length) (h2 : i < ds.length),
        CoreEq (cs.get ⟨i, h1⟩) (ds.get ⟨i, h2⟩)) →
      CoreEq (.vElem t p cs c k) (.vElem t q ds c' k)
  | func : ∀ r p q top top' k, PropsCoreEq p q →
      CoreEq (.vFunc r p top k) (.vFunc r q top' k)

/-- The keys of a children sequence that participate in keyed matching. -/
def truthyKeyOf (c : VNode) : Option String :=
  if keyTruthy (keyOf c) then some (keyStr (keyOf c)) else none

def siblingKeysNodup (cs : List VNode) : Prop := (cs.filterMap truthyKeyOf).Nodup

/-- Well-formed virtual tree: every props record has unique keys (JS objects
cannot have duplicate keys) and sibling keys are unique (§3 invariant of the
spec; duplicate keys are undefined behaviour). -/
inductive WFr : VNode → Prop where
  | prim : ∀ v k, WFr (.vPrim v k)
  | elem : ∀ t p cs c k, (propKeys p).Nodup → siblingKeysNodup cs →
      (∀ x ∈ cs, WFr x) → WFr (.vElem t p cs c k)
  | func : ∀ r p top k, (propKeys p).Nodup →
      (∀ t0, top = some t0 → WFr t0) → WFr (.vFunc r p top k)

/-- `Agree env v d`: the render-target node `d` is exactly what `render`
produces for `v` — text content, element state (`renderAcc`), children in
order; a component node delegates to its stored expansion, which is the
rendered image of invoking its function. -/
inductive Agree (env : CompEnv) : VNode → DNode → Prop where
  | prim : ∀ v k i, Agree env (.vPrim v k) (.dText i (jsString v))
  | elem : ∀ t p cs ctrl k i ds,
      cs.length = ds.length →
      (∀ j (h1 : j < cs.length) (h2 : j < ds.length),
        Agree env (cs.get ⟨j, h1⟩) (ds.get ⟨j, h2⟩)) →
      Agree env (.vElem t p cs ctrl k)
        (.dElem i t (renderAcc i ctrl p).attrs (renderAcc i ctrl p).style
          (renderAcc i ctrl p).val (renderAcc i ctrl p).chk
          (renderAcc i ctrl p).listeners ds)
  | func : ∀ r p top k d,
      CoreEq (env r p) top → Agree env top d →
      Agree env (.vFunc r p (some top) k) d

/-- A pure component environment: structurally equal props give structurally
equal output (the spec's components are pure rendering functions). -/
def PureEnv (env : CompEnv) : Prop :=
  ∀ r p q, PropsCoreEq p q → CoreEq (env r p) (env r q)

/-- An environment producing only well-formed trees. -/
def EnvWF (env : CompEnv) : Prop := ∀ r p, WFr (env r p)

/-! ### Basic lemmas about the association-map operations -/

theorem attrLookup_nil (k : String) : attrLookup [] k = none := rfl

theorem attrLookup_cons (e : String × String) (a : List (String × String)) (k : String) :
    attrLookup (e :: a) k = if e.1 = k then some e.2 else attrLookup a k := by
  by_cases h : e.1 = k
  · have hb : (e.1 == k) = true := beq_iff_eq.2 h
    simp [attrLookup, List.find?, hb, h]
  · have hb : (e.1 == k) = false := beq_eq_false_iff_ne.2 h
    simp [attrLookup, List.find?, hb, h]

theorem attrLookup_setAttr_self (a : List (String × String)) (k v : String) :
    attrLookup (setAttr a k v) k = some v := by
  induction a with
  | nil => simp [setAttr, attrLookup_cons]
  | cons e t ih =>
      by_cases h : e.1 = k
      · have hb : (e.1 == k) = true := beq_iff_eq.2 h
        simp [setAttr, hb, attrLookup_cons]
      · have hb : (e.1 == k) = false := beq_eq_false_iff_ne.2 h
        simp [setAttr, hb, attrLookup_cons, h, ih]

theorem attrLookup_setAttr_ne (a : List (String × String)) (k v k2 : String)
    (h : k2 ≠ k) : attrLookup (setAttr a k v) k2 = attrLookup a k2 := by
  have h2 : k ≠ k2 := fun hh => h hh.symm
  induction a with
  | nil => simp [setAttr, attrLookup_cons, h2]
  | cons e t ih =>
      by_cases he : e.1 = k
      · have hb : (e.1 == k) = true := beq_iff_eq.2 he
        have hne : e.1 ≠ k2 := fun hh => h2 (he ▸ hh)
        simp [setAttr, hb, attrLookup_cons, h2, hne]
      · have hb : (e.1 == k) = false := beq_eq_false_iff_ne.2 he
        simp [setAttr, hb, attrLookup_cons, ih]

theorem setAttr_already (a : List (String × String)) (k v : String)
    (h : attrLookup a k = some v) : setAttr a k v = a := by
  induction a with
  | nil => simp [attrLookup_nil] at h
  | cons e t ih =>
      by_cases he : e.1 = k
      · have hb : (e.1 == k) = true := beq_iff_eq.2 he
        rw [attrLookup_cons, if_pos he] at h
        rcases e with ⟨ek, ev⟩
        simp only at he hb h
        have hv : v = ev := (Option.some.injEq _ _ ▸ h).symm
        simp [setAttr, hb, he, hv]
      · have hb : (e.1 == k) = false := beq_eq_false_iff_ne.2 he
        rw [attrLookup_cons, if_neg he] at h
        simp [setAttr, hb, ih h]

theorem kget_nil (k : String) : kget [] k = none := rfl

theorem kget_cons (e : String × Nat) (m : KMap) (k : String) :
    kget (e :: m) k = if e.1 = k then some e.2 else kget m k := by
  by_cases h : e.1 = k
  · have hb : (e.1 == k) = true := beq_iff_eq.2 h
    simp [kget, List.find?, hb, h]
  · have hb : (e.1 == k) = false := beq_eq_false_iff_ne.2 h
    simp [kget, List.find?, hb, h]

theorem kget_kset_self (m : KMap) (k : String) (v : Nat) :
    kget (kset m k v) k = some v := by
  induction m with
  | nil => simp [kset, kget_cons]
  | cons e t ih =>
      by_cases h : e.1 = k
      · have hb : (e.1 == k) = true := beq_iff_eq.2 h
        simp [kset, hb, kget_cons]
      · have hb : (e.1 == k) = false := beq_eq_false_iff_ne.2 h
        simp [kset, hb, kget_cons, h, ih]

theorem kget_kset_ne (m : KMap) (k : String) (v : Nat) (k2 : String) (h : k2 ≠ k) :
    kget (kset m k v) k2 = kget m k2 := by
  have h2 : k ≠ k2 := fun hh => h hh.symm
  induction m with
  | nil => simp [kset, kget_cons, h2]
  | cons e t ih =>
      by_cases he : e.1 = k
      · have hb : (e.1 == k) = true := beq_iff_eq.2 he
        have hne : e.1 ≠ k2 := fun hh => h2 (he ▸ hh)
        simp [kset, hb, kget_cons, h2, hne]
      · have hb : (e.1 == k) = false := beq_eq_false_iff_ne.2 he
        simp [kset, hb, kget_cons, ih]

theorem kget_kdel_ne (m : KMap) (k k2 : String) (h : k2 ≠ k) :
    kget (kdel m k) k2 = kget m k2 := by
  induction m with
  | nil => rfl
  | cons e t ih =>
      by_cases he : e.1 = k
      · have hb : (e.1 != k) = false := by simp [he]
        have hne : e.1 ≠ k2 := fun hh => h (hh.symm.trans he)
        have h1 : kdel (e :: t) k = kdel t k := by
          simp [kdel, List.filter_cons, hb]
        rw [h1, ih, kget_cons, if_neg hne]
      · have hb : (e.1 != k) = true := by simp [he]
        have h1 : kdel (e :: t) k = e :: kdel t k := by
          simp [kdel, List.filter_cons, hb]
        rw [h1, kget_cons, kget_cons, ih]

/-! ### `dedupFirst` -/

theorem mem_of_dedupFirst : ∀ (l : List String) (k : String), k ∈ dedupFirst l → k ∈ l
  | [], k, h => by simp [dedupFirst] at h
  | a :: r, k, h => by
      rw [dedupFirst] at h
      rcases List.mem_cons.1 h with h | h
      · exact h ▸ List.mem_cons_self _ _
      · have := mem_of_dedupFirst _ _ h
        exact List.mem_cons_of_mem _ (List.mem_filter.1 this).1
termination_by l => l.length
decreasing_by
  simp only [List.length_cons]
  exact Nat.lt_succ_of_le (List.length_filter_le _ _)

theorem dedupFirst_nodup : ∀ l : List String, (dedupFirst l).Nodup
  | [] => by simp [dedupFirst]
  | k :: r => by
      rw [dedupFirst]
      refine List.nodup_cons.2 ⟨?_, dedupFirst_nodup _⟩
      intro hmem
      have : k ∈ r.filter (fun x => x != k) := mem_of_dedupFirst _ _ hmem
      simp [List.mem_filter] at this
termination_by l => l.length
decreasing_by
  simp only [List.length_cons]
  exact Nat.lt_succ_of_le (List.length_filter_le _ _)

theorem mem_dedupFirst_of_mem : ∀ (l : List String) (k : String), k ∈ l → k ∈ dedupFirst l
  | [], _, h => by simp at h
  | a :: r, k, h => by
      rw [dedupFirst]
      by_cases hk : k = a
      · exact hk ▸ List.mem_cons_self _ _
      · rcases List.mem_cons.1 h with h | h
        · exact absurd h hk
        · exact List.mem_cons_of_mem _
            (mem_dedupFirst_of_mem _ _ (List.mem_filter.2 ⟨h, by simp [hk]⟩))
termination_by l => l.length
decreasing_by
  simp only [List.length_cons]
  exact Nat.lt_succ_of_le (List.length_filter_le _ _)

/-! ### Reflexivity of the stringify comparison -/

mutual

theorem jsonEq_refl : ∀ x : JsonV, jsonEq x x = true
  | .jNull => rfl
  | .jStr s => by simp [jsonEq]
  | .jNum n => by simp [jsonEq]
  | .jBool b => by simp [jsonEq]
  | .jObj fs => by rw [jsonEq]; exact jsonFieldsEq_refl fs

theorem jsonFieldsEq_refl : ∀ fs : List (String × JsonV), jsonEq.fieldsEq fs fs = true
  | [] => rfl
  | (k, v) :: r => by
      rw [jsonEq.fieldsEq]
      simp [jsonEq_refl v, jsonFieldsEq_refl r]

end

theorem jsonValEq_of_toJson_eq {a b : Value} (h : toJson a = toJson b) :
    jsonValEq a b = true := by
  unfold jsonValEq
  rw [h]
  cases toJson b with
  | none => rfl
  | some x => exact jsonEq_refl x

/-! ### Lemmas about props records -/

theorem propGet_cons (e : String × Value) (p : Props) (k : String) :
    propGet (e :: p) k = if e.1 = k then e.2 else propGet p k := by
  by_cases h : e.1 = k
  · have hb : (e.1 == k) = true := beq_iff_eq.2 h
    simp [propGet, List.find?, hb, h]
  · have hb : (e.1 == k) = false := beq_eq_false_iff_ne.2 h
    simp [propGet, List.find?, hb, h]

theorem propsCoreEq_keys {p q : Props} (h : PropsCoreEq p q) :
    propKeys p = propKeys q := by
  induction h with
  | nil => rfl
  | cons he _ ih =>
      rename_i a b p1 q1
      simp only [propKeys, List.map_cons] at *
      rw [he.1, ih]

theorem propsCoreEq_get_ne_style {p q : Props} (h : PropsCoreEq p q) (k : String)
    (hk : k ≠ "style") : propGet p k = propGet q k := by
  induction h with
  | nil => rfl
  | cons he ht ih =>
      rename_i a b p1 q1
      rw [propGet_cons, propGet_cons, ← he.1]
      by_cases hak : a.1 = k
      · rw [if_pos hak, if_pos hak]
        have h2 := he.2
        rw [if_neg (fun hs => hk (hak ▸ hs))] at h2
        exact h2
      · rw [if_neg hak, if_neg hak]
        exact ih

theorem propsCoreEq_get_style {p q : Props} (h : PropsCoreEq p q) :
    toJson (propGet p "style") = toJson (propGet q "style") := by
  induction h with
  | nil => rfl
  | cons he ht ih =>
      rename_i a b p1 q1
      rw [propGet_cons, propGet_cons, ← he.1]
      by_cases hak : a.1 = "style"
      · rw [if_pos hak, if_pos hak]
        have h2 := he.2
        rw [if_pos hak] at h2
        exact h2
      · rw [if_neg hak, if_neg hak]
        exact ih

theorem pentry_symm {a b : String × Value} (h : pentry a b) : pentry b a := by
  refine ⟨h.1.symm, ?_⟩
  have h2 := h.2
  rw [← h.1]
  split at h2 <;> rename_i hs
  · rw [if_pos hs]; exact h2.symm
  · rw [if_neg hs]; exact h2.symm

theorem pentry_trans {a b c : String × Value} (h1 : pentry a b) (h2 : pentry b c) :
    pentry a c := by
  refine ⟨h1.1.trans h2.1, ?_⟩
  have x1 := h1.2
  have x2 := h2.2
  rw [← h1.1] at x2
  split at x1 <;> rename_i hs
  · rw [if_pos hs] at x2 ⊢; exact x1.trans x2
  · rw [if_neg hs] at x2 ⊢; exact x1.trans x2

theorem propsCoreEq_symm {p q : Props} (h : PropsCoreEq p q) : PropsCoreEq q p := by
  induction h with
  | nil => exact List.Forall₂.nil
  | cons he _ ih => exact List.Forall₂.cons (pentry_symm he) ih

theorem propsCoreEq_trans {p q r : Props} (h1 : PropsCoreEq p q) (h2 : PropsCoreEq q r) :
    PropsCoreEq p r := by
  induction h1 generalizing r with
  | nil => cases h2; exact List.Forall₂.nil
  | cons he ht ih =>
      cases h2 with
      | cons he2 ht2 => exact List.Forall₂.cons (pentry_trans he he2) (ih ht2)

/-! ### Lemmas about `CoreEq` -/

theorem coreEq_symm {v w : VNode} (h : CoreEq v w) : CoreEq w v := by
  induction h with
  | prim v k => exact CoreEq.prim v k
  | elem t p q cs ds c c2 k hp hl hc ih =>
      exact CoreEq.elem t q p ds cs c2 c k (propsCoreEq_symm hp) hl.symm
        (fun i h1 h2 => ih i h2 h1)
  | func r p q top top2 k hp =>
      exact CoreEq.func r q p top2 top k (propsCoreEq_symm hp)

theorem coreEq_trans {v w u : VNode} (h1 : CoreEq v w) (h2 : CoreEq w u) :
    CoreEq v u := by
  induction h1 generalizing u with
  | prim v k => exact h2
  | elem t p q cs ds c c2 k hp hl hc ih =>
      cases h2 with
      | elem _ _ q2 _ es _ c3 _ hp2 hl2 hc2 =>
          exact CoreEq.elem t p q2 cs es c c3 k (propsCoreEq_trans hp hp2)
            (hl.trans hl2)
            (fun i ha hb => ih i ha (hl ▸ ha) (hc2 i (hl ▸ ha) hb))
  | func r p q top top2 k hp =>
      cases h2 with
      | func _ _ q2 _ top3 _ hp2 =>
          exact CoreEq.func r p q2 top top3 k (propsCoreEq_trans hp hp2)

theorem coreEq_needsRepl {v w : VNode} (h : CoreEq v w) : needsRepl v w = false := by
  cases h with
  | prim v k => rfl
  | elem t p q cs ds c c2 k hp hl hc => simp [needsRepl]
  | func r p q top top2 k hp => simp [needsRepl]

theorem coreEq_keyOf {v w : VNode} (h : CoreEq v w) : keyOf v = keyOf w := by
  cases h <;> rfl

/-! ### The per-declaration result of a style merge -/

/-- The value the last assignment for declaration `k` writes, if any. -/
def lastDecl : List (String × String) → String → Option String
  | [], _ => none
  | d :: ds, k =>
      match lastDecl ds k with
      | some v => some v
      | none => if d.1 = k then some d.2 else none

theorem attrLookup_assignDecls (base ds : List (String × String)) (k : String) :
    attrLookup (assignDecls base ds) k =
      match lastDecl ds k with
      | some v => some v
      | none => attrLookup base k := by
  induction ds generalizing base with
  | nil => rfl
  | cons d ds ih =>
      rw [assignDecls, ih]
      cases hl : lastDecl ds k with
      | some v => simp [lastDecl, hl]
      | none =>
          by_cases hd : d.1 = k
          · subst hd
            simp [lastDecl, hl, attrLookup_setAttr_self]
          · simp [lastDecl, hl, hd,
              attrLookup_setAttr_ne base d.1 d.2 k (fun hh => hd hh.symm)]

theorem dedupFirst_self_append : ∀ l : List String, l.Nodup → dedupFirst (l ++ l) = l
  | [], _ => by simp [dedupFirst]
  | k :: r, h => by
      have hk : k ∉ r := (List.nodup_cons.1 h).1
      have hr : r.Nodup := (List.nodup_cons.1 h).2
      have hfr : r.filter (fun x => x != k) = r := by
        refine List.filter_eq_self.2 (fun a ha => ?_)
        simp only [bne_iff_ne, ne_eq, decide_eq_true_eq]
        exact fun hh => hk (hh ▸ ha)
      rw [List.cons_append, dedupFirst]
      congr 1
      have hfilter : ((r ++ k :: r).filter (fun x => x != k)) = r ++ r := by
        rw [List.filter_append, List.filter_cons]
        simp only [bne_self_eq_false, Bool.false_eq_true, if_false, hfr]
      rw [hfilter]
      exact dedupFirst_self_append r hr

/-! ### Shape-preservation lemmas for `diffProps`, `diffChildren`, `diff` -/

theorem diffProps_parts {old new_ : VNode} {d : DNode} {st : St} {out}
    (h : diffProps old new_ d st = some out) :
    out.2.1.dId = d.dId ∧ keyOf out.1 = keyOf old := by
  cases old <;> cases new_ <;> cases d <;>
    simp only [diffProps, Option.some.injEq, reduceCtorEq] at h
  rw [← h]
  exact ⟨rfl, rfl⟩

theorem diffChildren_dId {env : CompEnv} {fuel : Nat} {cs ns : List VNode}
    {parent : DNode} {st : St} {out}
    (h : diffChildren env fuel cs ns parent st = some out) :
    out.2.1.dId = parent.dId := by
  cases fuel with
  | zero => exact absurd h (by simp [diffChildren])
  | succ fuel =>
      cases parent with
      | dText i s => exact absurd h (by simp [diffChildren])
      | dElem pid pt pa psty pv pc pls pkids =>
          rw [diffChildren] at h
          split at h
          · split at h
            · exact absurd h (by simp)
            · simp only [Option.some.injEq] at h
              rw [← h]
              rfl
          · split at h
            · simp only [Option.some.injEq] at h
              rw [← h]
              rfl
            · split at h
              · exact absurd h (by simp)
              · split at h
                · exact absurd h (by simp)
                · split at h
                  · exact absurd h (by simp)
                  · simp only [Option.some.injEq] at h
                    rw [← h]
                    rfl

/-! ### Unfolding equations for the fuelled routines -/

theorem diff_zero (env : CompEnv) (old new_ : VNode) (d : DNode) (st : St) :
    diff env 0 old new_ d st = none := by
  rw [diff.eq_def]

theorem diff_succ (env : CompEnv) (fuel : Nat) (old new_ : VNode) (d : DNode) (st : St) :
    diff env (Nat.succ fuel) old new_ d st =
      match new_ with
      | .vPrim nv _ =>
          match old, d with
          | .vPrim ov ok, .dText tid ts =>
              if strictEq ov nv then some (.vPrim ov ok, .dText tid ts, st)
              else some (.vPrim nv ok, .dText tid (jsString nv), st)
          | _, _ => none
      | .vElem _ np ncs _ _ =>
          match diffProps old new_ d st with
          | some (.vElem t1 p1 cs1 ctrl1 k1, d1, st1) =>
              match diffChildren env fuel cs1 ncs d1 st1 with
              | none => none
              | some (cs', d2, st2) => some (.vElem t1 p1 cs' ctrl1 k1, d2, st2)
          | _ => none
      | .vFunc nr np _ _ =>
          match old with
          | .vFunc or_ op otop ok =>
              if truthy (propGet op "lazy") && jsonPropsEq op np then
                some (.vFunc or_ op otop ok, d, st)
              else
                match otop with
                | none => none
                | some ot =>
                    match diff env fuel ot (env nr np) d
                        ⟨st.fresh, st.trace ++ [.invokeFn nr np]⟩ with
                    | none => none
                    | some (t', d', st') => some (.vFunc or_ np (some t') ok, d', st')
          | _ => none := by
  rw [diff.eq_def]

theorem diffChildren_zero (env : CompEnv) (cs ns : List VNode) (parent : DNode) (st : St) :
    diffChildren env 0 cs ns parent st = none := by
  rw [diffChildren.eq_def]

theorem diffChildren_succ (env : CompEnv) (fuel : Nat) (oldCs newCs : List VNode)
    (parent : DNode) (st : St) :
    diffChildren env (Nat.succ fuel) oldCs newCs parent st =
      match parent with
      | .dElem pid pt pa psty pv pc pls pkids =>
          if oldCs.length == 0 then
            match appendNew env fuel newCs pkids st with
            | none => none
            | some (added, pkids', st') =>
                some (added, .dElem pid pt pa psty pv pc pls pkids', st')
          else if newCs.length == 0 then
            some ([], .dElem pid pt pa psty pv pc pls [], st)
          else
            match removeAbsent (buildKM newCs) oldCs pkids (buildKM oldCs) 0 with
            | none => none
            | some (vs1, ds1, okm1) =>
                match mainLoop env fuel 0 vs1 newCs ds1 okm1 0 st with
                | none => none
                | some (vs2, ds2, removed, st2) =>
                    match trailing removed vs2 ds2 with
                    | none => none
                    | some (vs3, ds3) =>
                        some (vs3, .dElem pid pt pa psty pv pc pls ds3, st2)
      | _ => none := by
  rw [diffChildren.eq_def]

theorem mainLoop_zero (env : CompEnv) (i : Nat) (vs ns : List VNode) (ds : List DNode)
    (okm : KMap) (removed : Nat) (st : St) :
    mainLoop env 0 i vs ns ds okm removed st = none := by
  rw [mainLoop.eq_def]

theorem mainLoop_succ (env : CompEnv) (fuel i : Nat) (vs ns : List VNode)
    (ds : List DNode) (okm : KMap) (removed : Nat) (st : St) :
    mainLoop env (Nat.succ fuel) i vs ns ds okm removed st =
      (if i < max vs.length ns.length then
        match ns[i]? with
        | none => mainLoop env fuel (i + 1) vs ns ds okm (removed + 1) st
        | some newChild =>
            match vs[i]? with
            | none =>
                match render env fuel newChild st with
                | none => none
                | some (nv, nd, st') =>
                    mainLoop env fuel (i + 1) (vs ++ [nv]) ns (ds ++ [nd]) okm removed st'
            | some oldChild =>
                match (if keyTruthy (keyOf newChild) then
                         kget okm (keyStr (keyOf newChild)) else none) with
                | some j =>
                    if j ≠ i then
                      let okm1 := if keyTruthy (keyOf oldChild) then
                          kset okm (keyStr (keyOf oldChild)) j else okm
                      match domChildSwap ds i j with
                      | none => none
                      | some ds1 =>
                          let vs1 := listSwap vs i j
                          match vs1[i]?, ds1[i]? with
                          | some vi, some di =>
                              match diff env fuel vi newChild di st with
                              | none => none
                              | some (v', d', st') =>
                                  mainLoop env fuel (i + 1) (vs1.set i v') ns
                                    (ds1.set i d') okm1 removed st'
                          | _, _ => none
                    else loopRest env fuel i vs ns ds okm removed st oldChild newChild
                | none => loopRest env fuel i vs ns ds okm removed st oldChild newChild
      else some (vs, ds, removed, st)) := by
  rw [mainLoop.eq_def]

theorem loopRest_eq (env : CompEnv) (fuel i : Nat) (vs ns : List VNode)
    (ds : List DNode) (okm : KMap) (removed : Nat) (st : St)
    (oldChild newChild : VNode) :
    loopRest env fuel i vs ns ds okm removed st oldChild newChild =
      (let okm1 := if keyTruthy (keyOf oldChild) then
          kdel okm (keyStr (keyOf oldChild)) else okm
      if needsRepl oldChild newChild then
        match render env fuel newChild st with
        | none => none
        | some (nv, nd, st') =>
            if i < ds.length then
              mainLoop env fuel (i + 1) (vs.set i nv) ns (ds.set i nd) okm1 removed st'
            else none
      else
        match ds[i]? with
        | none => none
        | some di =>
            match diff env fuel oldChild newChild di st with
            | none => none
            | some (v', d', st') =>
                mainLoop env fuel (i + 1) (vs.set i v') ns (ds.set i d') okm1 removed st') := by
  rw [loopRest.eq_def]

theorem render_zero (env : CompEnv) (v : VNode) (st : St) :
    render env 0 v st = none := by
  rw [render.eq_def]

theorem render_succ (env : CompEnv) (fuel : Nat) (v : VNode) (st : St) :
    render env (Nat.succ fuel) v st =
      match v with
      | .vPrim v k =>
          some (.vPrim v k, .dText st.fresh (jsString v), ⟨st.fresh + 1, st.trace⟩)
      | .vElem tag props cs ctrl k =>
          let eid := st.fresh
          let acc := renderAcc eid ctrl props
          match renderList env fuel cs ⟨st.fresh + 1, st.trace ++ acc.trace⟩ with
          | none => none
          | some (cs', ds, st') =>
              some (.vElem tag props cs' ctrl k,
                    .dElem eid tag acc.attrs acc.style acc.val acc.chk acc.listeners ds,
                    st')
      | .vFunc r p _ k =>
          match render env fuel (env r p) ⟨st.fresh, st.trace ++ [.invokeFn r p]⟩ with
          | none => none
          | some (t', d, st') => some (.vFunc r p (some t') k, d, st') := by
  rw [render.eq_def]
  cases v <;> rfl

theorem renderList_zero (env : CompEnv) (cs : List VNode) (st : St) :
    renderList env 0 cs st = none := by
  rw [renderList.eq_def]

theorem renderList_succ (env : CompEnv) (fuel : Nat) (cs : List VNode) (st : St) :
    renderList env (Nat.succ fuel) cs st =
      match cs with
      | [] => some ([], [], st)
      | c :: cs =>
          match render env fuel c st with
          | none => none
          | some (c', d, st') =>
              match renderList env fuel cs st' with
              | none => none
              | some (cs', ds, st'') => some (c' :: cs', d :: ds, st'') := by
  rw [renderList.eq_def]
  cases cs <;> rfl

theorem diff_parts : ∀ (fuel : Nat) {env : CompEnv} {old new_ : VNode} {d : DNode}
    {st : St} {out}, diff env fuel old new_ d st = some out →
    out.2.1.dId = d.dId ∧ keyOf out.1 = keyOf old
  | 0, _, old, new_, d, st, out, h => absurd h (by simp [diff_zero])
  | Nat.succ fuel, env, old, new_, d, st, out, h => by
      rw [diff_succ] at h
      cases new_ with
      | vPrim nv nk =>
          cases old <;> cases d <;> simp only at h <;> try exact absurd h (by simp)
          split at h <;>
            (simp only [Option.some.injEq] at h; rw [← h]; exact ⟨rfl, rfl⟩)
      | vElem nt np ncs nctrl nk =>
          simp only at h
          split at h
          · rename_i t1 p1 cs1 ctrl1 k1 d1 st1 hp
            split at h
            · exact absurd h (by simp)
            · rename_i cs2 d2 st2 hc
              simp only [Option.some.injEq] at h
              have h1 := diffProps_parts hp
              have h2 := diffChildren_dId hc
              rw [← h]
              exact ⟨h2.trans h1.1, h1.2⟩
          · exact absurd h (by simp)
      | vFunc nr np ntop nk =>
          simp only at h
          cases old with
          | vPrim a b => exact absurd h (by simp)
          | vElem a b c d2 e => exact absurd h (by simp)
          | vFunc or_ op otop ok =>
          simp only at h
          split at h
          · simp only [Option.some.injEq] at h
            rw [← h]
            exact ⟨rfl, rfl⟩
          · cases otop with
            | none => exact absurd h (by simp)
            | some ot =>
                simp only at h
                split at h
                · exact absurd h (by simp)
                · rename_i t2 d2 st2 hd
                  simp only [Option.some.injEq] at h
                  have h1 := diff_parts fuel hd
                  rw [← h]
                  exact ⟨h1.1, rfl⟩

/-! ### Render lemmas: traces, freshness, soundness -/

theorem renderStep_trace (eid ctrl : Nat) (acc : PAcc) (kv : String × Value)
    (hacc : ∀ e ∈ acc.trace, Eff.isAbort e = false) :
    ∀ e ∈ (renderStep eid ctrl acc kv).trace, Eff.isAbort e = false := by
  intro e he
  unfold renderStep at he
  split at he
  · exact hacc e he
  · split at he
    · exact hacc e he
    · split at he
      · exact hacc e he
      · split at he
        · exact hacc e he
        · split at he
          · simp only at he
            rcases List.mem_append.1 he with hm | hm
            · exact hacc e hm
            · rw [List.mem_singleton.1 hm]
              rfl
          · exact hacc e he

theorem foldl_renderStep_trace (eid ctrl : Nat) :
    ∀ (p : Props) (acc : PAcc), (∀ e ∈ acc.trace, Eff.isAbort e = false) →
    ∀ e ∈ (p.foldl (renderStep eid ctrl) acc).trace, Eff.isAbort e = false
  | [], acc, hacc => hacc
  | kv :: p, acc, hacc =>
      foldl_renderStep_trace eid ctrl p (renderStep eid ctrl acc kv)
        (renderStep_trace eid ctrl acc kv hacc)

theorem renderAcc_trace (eid ctrl : Nat) (p : Props) :
    ∀ e ∈ (renderAcc eid ctrl p).trace, Eff.isAbort e = false :=
  foldl_renderStep_trace eid ctrl p _ (by intro e he; simp [PAcc.trace] at he)

mutual

theorem render_trace : ∀ (fuel : Nat) {env : CompEnv} {v : VNode} {st : St} {out},
    render env fuel v st = some out →
    ∃ δ, out.2.2.trace = st.trace ++ δ ∧ ∀ e ∈ δ, Eff.isAbort e = false
  | 0, _, v, st, out, h => absurd h (by simp [render_zero])
  | Nat.succ fuel, env, v, st, out, h => by
      rw [render_succ] at h
      cases v with
      | vPrim v k =>
          simp only [Option.some.injEq] at h
          exact ⟨[], by rw [← h]; simp, by simp⟩
      | vElem tag props cs ctrl k =>
          simp only at h
          split at h
          · exact absurd h (by simp)
          · rename_i cs2 ds2 st2 hr
            simp only [Option.some.injEq] at h
            obtain ⟨δ, hδ, hab⟩ := renderList_trace fuel hr
            refine ⟨(renderAcc st.fresh ctrl props).trace ++ δ, ?_, ?_⟩
            · rw [← h]
              simpa [List.append_assoc] using hδ
            · intro e he
              rcases List.mem_append.1 he with hm | hm
              · exact renderAcc_trace _ _ _ e hm
              · exact hab e hm
      | vFunc r p top k =>
          simp only at h
          split at h
          · exact absurd h (by simp)
          · rename_i t2 d2 st2 hr
            simp only [Option.some.injEq] at h
            obtain ⟨δ, hδ, hab⟩ := render_trace fuel hr
            refine ⟨Eff.invokeFn r p :: δ, ?_, ?_⟩
            · rw [← h]
              simpa [List.append_assoc] using hδ
            · intro e he
              rcases List.mem_cons.1 he with hm | hm
              · rw [hm]; rfl
              · exact hab e hm

theorem renderList_trace : ∀ (fuel : Nat) {env : CompEnv} {cs : List VNode} {st : St}
    {out}, renderList env fuel cs st = some out →
    ∃ δ, out.2.2.trace = st.trace ++ δ ∧ ∀ e ∈ δ, Eff.isAbort e = false
  | 0, _, cs, st, out, h => absurd h (by simp [renderList_zero])
  | Nat.succ fuel, env, cs, st, out, h => by
      rw [renderList_succ] at h
      cases cs with
      | nil =>
          simp only [Option.some.injEq] at h
          exact ⟨[], by rw [← h]; simp, by simp⟩
      | cons c cs =>
          simp only at h
          split at h
          · exact absurd h (by simp)
          · rename_i c2 d2 st2 hr
            split at h
            · exact absurd h (by simp)
            · rename_i cs2 ds2 st3 hrl
              simp only [Option.some.injEq] at h
              obtain ⟨δ1, hδ1, hab1⟩ := render_trace fuel hr
              obtain ⟨δ2, hδ2, hab2⟩ := renderList_trace fuel hrl
              refine ⟨δ1 ++ δ2, ?_, ?_⟩
              · rw [← h]
                simp only
                rw [hδ2, hδ1, List.append_assoc]
              · intro e he
                rcases List.mem_append.1 he with hm | hm
                · exact hab1 e hm
                · exact hab2 e hm

end

mutual

theorem render_fresh : ∀ (fuel : Nat) {env : CompEnv} {v : VNode} {st : St} {out},
    render env fuel v st = some out →
    st.fresh ≤ out.2.1.dId ∧ st.fresh < out.2.2.fresh
  | 0, _, v, st, out, h => absurd h (by simp [render_zero])
  | Nat.succ fuel, env, v, st, out, h => by
      rw [render_succ] at h
      cases v with
      | vPrim v k =>
          simp only [Option.some.injEq] at h
          rw [← h]
          exact ⟨le_refl _, Nat.lt_succ_self _⟩
      | vElem tag props cs ctrl k =>
          simp only at h
          split at h
          · exact absurd h (by simp)
          · rename_i cs2 ds2 st2 hr
            simp only [Option.some.injEq] at h
            have h2 := renderList_fresh fuel hr
            rw [← h]
            exact ⟨le_refl _, Nat.lt_of_succ_le h2⟩
      | vFunc r p top k =>
          simp only at h
          split at h
          · exact absurd h (by simp)
          · rename_i t2 d2 st2 hr
            simp only [Option.some.injEq] at h
            have h2 := render_fresh fuel hr
            rw [← h]
            exact h2

theorem renderList_fresh : ∀ (fuel : Nat) {env : CompEnv} {cs : List VNode} {st : St}
    {out}, renderList env fuel cs st = some out → st.fresh ≤ out.2.2.fresh
  | 0, _, cs, st, out, h => absurd h (by simp [renderList_zero])
  | Nat.succ fuel, env, cs, st, out, h => by
      rw [renderList_succ] at h
      cases cs with
      | nil =>
          simp only [Option.some.injEq] at h
          rw [← h]
      | cons c cs =>
          simp only at h
          split at h
          · exact absurd h (by simp)
          · rename_i c2 d2 st2 hr
            split at h
            · exact absurd h (by simp)
            · rename_i cs2 ds2 st3 hrl
              simp only [Option.some.injEq] at h
              have h1 := render_fresh fuel hr
              have h2 := renderList_fresh fuel hrl
              rw [← h]
              exact le_trans (le_of_lt h1.2) h2

end

theorem propsCoreEq_refl (p : Props) : PropsCoreEq p p := by
  induction p with
  | nil => exact List.Forall₂.nil
  | cons e t ih =>
      refine List.Forall₂.cons ⟨rfl, ?_⟩ ih
      split <;> rfl

theorem truthyKeyOf_congr {a b : VNode} (h : keyOf a = keyOf b) :
    truthyKeyOf a = truthyKeyOf b := by
  unfold truthyKeyOf
  rw [h]

theorem filterMap_truthyKey_congr : ∀ (cs ds : List VNode), cs.length = ds.length →
    (∀ i (h1 : i < cs.length) (h2 : i < ds.length),
      keyOf (cs.get ⟨i, h1⟩) = keyOf (ds.get ⟨i, h2⟩)) →
    cs.filterMap truthyKeyOf = ds.filterMap truthyKeyOf
  | [], [], _, _ => rfl
  | [], _ :: _, h, _ => by simp at h
  | _ :: _, [], h, _ => by simp at h
  | c :: cs, d :: ds, h, hk => by
      have h0 := hk 0 (by simp) (by simp)
      simp only [List.get] at h0
      have ht := filterMap_truthyKey_congr cs ds (by simpa using h)
        (fun i h1 h2 => by
          have := hk (i + 1) (by simpa using Nat.succ_lt_succ h1)
            (by simpa using Nat.succ_lt_succ h2)
          simpa [List.get] using this)
      rw [List.filterMap_cons, List.filterMap_cons, truthyKeyOf_congr h0, ht]

mutual

theorem render_sound : ∀ (fuel : Nat) {env : CompEnv} {v : VNode} {st : St} {out},
    EnvWF env → render env fuel v st = some out →
    Agree env out.1 out.2.1 ∧ CoreEq v out.1 ∧ (WFr v → WFr out.1)
  | 0, _, v, st, out, _, h => absurd h (by simp [render_zero])
  | Nat.succ fuel, env, v, st, out, hWF, h => by
      rw [render_succ] at h
      cases v with
      | vPrim v k =>
          simp only [Option.some.injEq] at h
          rw [← h]
          exact ⟨Agree.prim v k st.fresh, CoreEq.prim v k, fun hw => hw⟩
      | vElem tag props cs ctrl k =>
          simp only at h
          split at h
          · exact absurd h (by simp)
          · rename_i cs2 ds2 st2 hr
            simp only [Option.some.injEq] at h
            obtain ⟨hlen1, hlen2, hAg, hCE, hW⟩ := renderList_sound fuel hWF hr
            rw [← h]
            refine ⟨?_, ?_, ?_⟩
            · exact Agree.elem tag props cs2 ctrl k st.fresh ds2
                (hlen1.trans hlen2.symm) hAg
            · exact CoreEq.elem tag props props cs cs2 ctrl ctrl k
                (propsCoreEq_refl props) hlen1.symm hCE
            · intro hw
              cases hw with
              | elem _ _ _ _ _ hnd hsib hkids =>
                  refine WFr.elem _ _ _ _ _ hnd ?_ (hW hkids)
                  unfold siblingKeysNodup at hsib ⊢
                  rw [filterMap_truthyKey_congr cs2 cs hlen1
                    (fun i h1 h2 => (coreEq_keyOf (hCE i h2 h1)).symm)]
                  exact hsib
      | vFunc r p top k =>
          simp only at h
          split at h
          · exact absurd h (by simp)
          · rename_i t2 d2 st2 hr
            simp only [Option.some.injEq] at h
            obtain ⟨hAg, hCE, hW⟩ := render_sound fuel hWF hr
            rw [← h]
            refine ⟨Agree.func r p t2 k d2 hCE hAg, ?_, ?_⟩
            · exact CoreEq.func r p p top (some t2) k (propsCoreEq_refl p)
            · intro hw
              cases hw with
              | func _ _ _ _ hnd _ =>
                  exact WFr.func r p (some t2) k hnd
                    (fun t0 ht0 => by
                      cases ht0
                      exact hW (hWF r p))

theorem renderList_sound : ∀ (fuel : Nat) {env : CompEnv} {cs : List VNode} {st : St}
    {out}, EnvWF env → renderList env fuel cs st = some out →
    out.1.length = cs.length ∧ out.2.1.length = cs.length ∧
    (∀ i (h1 : i < out.1.length) (h2 : i < out.2.1.length),
      Agree env (out.1.get ⟨i, h1⟩) (out.2.1.get ⟨i, h2⟩)) ∧
    (∀ i (h1 : i < cs.length) (h2 : i < out.1.length),
      CoreEq (cs.get ⟨i, h1⟩) (out.1.get ⟨i, h2⟩)) ∧
    ((∀ x ∈ cs, WFr x) → ∀ x ∈ out.1, WFr x)
  | 0, _, cs, st, out, _, h => absurd h (by simp [renderList_zero])
  | Nat.succ fuel, env, cs, st, out, hWF, h => by
      rw [renderList_succ] at h
      cases cs with
      | nil =>
          simp only [Option.some.injEq] at h
          rw [← h]
          refine ⟨rfl, rfl, ?_, ?_, ?_⟩
          · intro i h1 h2
            simp at h1
          · intro i h1 h2
            simp at h1
          · intro _ x hx
            simp at hx
      | cons c cs =>
          simp only at h
          split at h
          · exact absurd h (by simp)
          · rename_i c2 d2 st2 hr
            split at h
            · exact absurd h (by simp)
            · rename_i cs2 ds2 st3 hrl
              simp only [Option.some.injEq] at h
              obtain ⟨hAg1, hCE1, hW1⟩ := render_sound fuel hWF hr
              obtain ⟨hlen1, hlen2, hAg, hCE, hW⟩ := renderList_sound fuel hWF hrl
              rw [← h]
              refine ⟨by simpa using hlen1, by simpa using hlen2, ?_, ?_, ?_⟩
              · intro i h1 h2
                cases i with
                | zero => exact hAg1
                | succ i =>
                    exact hAg i (by simpa using h1) (by simpa using h2)
              · intro i h1 h2
                cases i with
                | zero => exact hCE1
                | succ i =>
                    exact hCE i (by simpa using h1) (by simpa using h2)
              · intro hall x hx
                rcases List.mem_cons.1 hx with hx | hx
                · rw [hx]
                  exact hW1 (hall c (List.mem_cons_self _ _))
                · exact hW (fun y hy => hall y (List.mem_cons_of_mem _ hy)) x hx

end

/-! ### `diffProps` on structurally equal props: no observable change -/

theorem strictEq_refl (v : Value) : strictEq v v = true := by
  cases v <;> simp [strictEq]

theorem propGet_of_nodup : ∀ (p : Props), (propKeys p).Nodup →
    ∀ kv ∈ p, propGet p kv.1 = kv.2
  | [], _, kv, hm => by simp at hm
  | e :: t, hnd, kv, hm => by
      rcases List.mem_cons.1 hm with hm | hm
      · rw [hm, propGet_cons, if_pos rfl]
      · have hne : e.1 ≠ kv.1 := by
          intro hh
          exact (List.nodup_cons.1 hnd).1
            (hh ▸ List.mem_map.2 ⟨kv, hm, rfl⟩)
        rw [propGet_cons, if_neg hne]
        exact propGet_of_nodup t (List.nodup_cons.1 hnd).2 kv hm

/-- The listener entries `render` registers for a props record. -/
def bindsOf (p : Props) (tok : Nat) : List (String × Value × Nat) :=
  p.filterMap (fun kv =>
    if startsOn kv.1 then some (evName kv.1, kv.2, tok) else none)

theorem foldl_renderStep_fields (eid ctrl : Nat) :
    ∀ (p : Props) (acc : PAcc),
      (p.foldl (renderStep eid ctrl) acc).listeners = acc.listeners ++ bindsOf p ctrl
  | [], acc => by simp [bindsOf]
  | kv :: p, acc => by
      rw [List.foldl_cons, foldl_renderStep_fields eid ctrl p]
      unfold renderStep bindsOf
      by_cases h1 : kv.1 == "style"
      · have : startsOn kv.1 = false := by
          rw [beq_iff_eq.1 h1]
          decide
        simp [h1, List.filterMap_cons, this, bindsOf]
      · by_cases h2 : kv.1 == "className"
        · have : startsOn kv.1 = false := by
            rw [beq_iff_eq.1 h2]
            decide
          simp [h1, h2, List.filterMap_cons, this, bindsOf]
        · by_cases h3 : kv.1 == "value"
          · have : startsOn kv.1 = false := by
              rw [beq_iff_eq.1 h3]
              decide
            simp [h1, h2, h3, List.filterMap_cons, this, bindsOf]
          · by_cases h4 : kv.1 == "checked"
            · have : startsOn kv.1 = false := by
                rw [beq_iff_eq.1 h4]
                decide
              simp [h1, h2, h3, h4, List.filterMap_cons, this, bindsOf]
            · by_cases h5 : startsOn kv.1
              · simp [h1, h2, h3, h4, h5, List.filterMap_cons, bindsOf]
              · simp [h1, h2, h3, h4, h5, List.filterMap_cons, bindsOf]

theorem renderAcc_listeners (eid ctrl : Nat) (p : Props) :
    (renderAcc eid ctrl p).listeners = bindsOf p ctrl := by
  unfold renderAcc
  rw [foldl_renderStep_fields]
  simp

theorem bindsOf_tok (p : Props) (tok : Nat) :
    ∀ l ∈ bindsOf p tok, l.2.2 = tok := by
  intro l hl
  unfold bindsOf at hl
  rcases List.mem_filterMap.1 hl with ⟨kv, _, hkv⟩
  split at hkv
  · cases hkv
    rfl
  · exact absurd hkv (by simp)

theorem filter_ne_tok_nil {ls : List (String × Value × Nat)} {c : Nat}
    (h : ∀ l ∈ ls, l.2.2 = c) : ls.filter (fun l => l.2.2 != c) = [] := by
  induction ls with
  | nil => rfl
  | cons x t ih =>
      rw [List.filter_cons, if_neg (by simp [h x (List.mem_cons_self _ _)])]
      exact ih (fun l hl => h l (List.mem_cons_of_mem _ hl))

/-- The listener entries `diffProps` registers when walking `ks`. -/
def bindsOfKeys (ks : List String) (np : Props) (tok : Nat) :
    List (String × Value × Nat) :=
  ks.filterMap (fun k =>
    if startsOn k && truthy (propGet np k) then
      some (evName k, propGet np k, tok) else none)

/-- Under structurally equal props every non-listener key is skipped by
`diffProps`, and the listener keys only accumulate fresh bindings. -/
theorem foldl_dpStep_skip (eid ctrl' : Nat) {op np : Props} (hp : PropsCoreEq op np) :
    ∀ (ks : List String) (acc : PAcc),
      (ks.foldl (dpStep eid ctrl' op np) acc) =
        { acc with listeners := acc.listeners ++ bindsOfKeys ks np ctrl',
                   trace := acc.trace ++
                     (bindsOfKeys ks np ctrl').map
                       (fun b => Eff.addListener eid b.1 b.2.1 b.2.2) }
  | [], acc => by simp [bindsOfKeys]
  | k :: ks, acc => by
      rw [List.foldl_cons, foldl_dpStep_skip eid ctrl' hp ks]
      unfold dpStep
      by_cases h5 : startsOn k
      · have hkst : k ≠ "style" := by
          intro hh
          rw [hh] at h5
          exact absurd h5 (by decide)
        have hpg : propGet op k = propGet np k := propsCoreEq_get_ne_style hp k hkst
        by_cases htr : truthy (propGet np k)
        · simp only [h5, if_true, htr, bindsOfKeys, List.filterMap_cons, Bool.and_self]
          simp [htr, List.append_assoc, bindsOfKeys]
        · simp only [h5, if_true, htr, if_false]
          simp [bindsOfKeys, List.filterMap_cons, h5, htr]
      · by_cases h2 : k == "className"
        · have hkst : k ≠ "style" := by
            intro hh
            rw [hh] at h2
            exact absurd (beq_iff_eq.1 h2) (by decide)
          have hpg : propGet op k = propGet np k := propsCoreEq_get_ne_style hp k hkst
          simp [h5, h2, hpg, strictEq_refl, bindsOfKeys, List.filterMap_cons]
        · by_cases h3 : k == "style"
          · have hj : toJson (propGet op k) = toJson (propGet np k) := by
              rw [beq_iff_eq.1 h3]
              exact propsCoreEq_get_style hp
            simp [h5, h2, h3, jsonValEq_of_toJson_eq hj, bindsOfKeys,
              List.filterMap_cons]
          · have hkst : k ≠ "style" := by
              intro hh
              exact absurd (beq_iff_eq.2 hh) (by simp [h3])
            have hpg : propGet op k = propGet np k := propsCoreEq_get_ne_style hp k hkst
            simp [h5, h2, h3, hpg, strictEq_refl, bindsOfKeys, List.filterMap_cons]

/-- The observable `(event, handler)` pairs a props record contributes. -/
def obsBinds (p : Props) : List (String × Value) :=
  p.filterMap (fun kv =>
    if startsOn kv.1 && truthy kv.2 then some (evName kv.1, kv.2) else none)

theorem bindsOf_cons (kv : String × Value) (p : Props) (tok : Nat) :
    bindsOf (kv :: p) tok =
      if startsOn kv.1 then (evName kv.1, kv.2, tok) :: bindsOf p tok
      else bindsOf p tok := by
  unfold bindsOf
  rw [List.filterMap_cons]
  by_cases h : startsOn kv.1 <;> simp [h]

theorem obsBinds_cons (kv : String × Value) (p : Props) :
    obsBinds (kv :: p) =
      if startsOn kv.1 && truthy kv.2 then (evName kv.1, kv.2) :: obsBinds p
      else obsBinds p := by
  unfold obsBinds
  rw [List.filterMap_cons]
  by_cases h : startsOn kv.1 && truthy kv.2 <;> simp [h]

theorem bindsOfKeys_cons (k : String) (ks : List String) (np : Props) (tok : Nat) :
    bindsOfKeys (k :: ks) np tok =
      if startsOn k && truthy (propGet np k) then
        (evName k, propGet np k, tok) :: bindsOfKeys ks np tok
      else bindsOfKeys ks np tok := by
  unfold bindsOfKeys
  rw [List.filterMap_cons]
  by_cases h : startsOn k && truthy (propGet np k) <;> simp [h]

theorem obsListeners_cons_truthy {x : String × Value × Nat}
    {ls : List (String × Value × Nat)} (h : truthy x.2.1 = true) :
    obsListeners (x :: ls) = (x.1, x.2.1) :: obsListeners ls := by
  simp [obsListeners, List.filter_cons, h]

theorem obsListeners_cons_falsy {x : String × Value × Nat}
    {ls : List (String × Value × Nat)} (h : truthy x.2.1 = false) :
    obsListeners (x :: ls) = obsListeners ls := by
  simp [obsListeners, List.filter_cons, h]

theorem obsListeners_bindsOf (p : Props) (tok : Nat) :
    obsListeners (bindsOf p tok) = obsBinds p := by
  induction p with
  | nil => rfl
  | cons kv p ih =>
      rw [bindsOf_cons, obsBinds_cons]
      by_cases h1 : startsOn kv.1
      · rw [if_pos h1]
        by_cases h2 : truthy kv.2
        · rw [obsListeners_cons_truthy h2, if_pos (by simp [h1, h2]), ih]
        · rw [obsListeners_cons_falsy (by simpa using h2),
            if_neg (by simp [h2]), ih]
      · rw [if_neg h1, if_neg (by simp [h1]), ih]

theorem obsListeners_bindsOfKeys (np : Props) (tok : Nat) :
    ∀ (p : Props), (∀ kv ∈ p, startsOn kv.1 = true → propGet np kv.1 = kv.2) →
    obsListeners (bindsOfKeys (propKeys p) np tok) = obsBinds p
  | [], _ => rfl
  | kv :: p, h => by
      have ht := obsListeners_bindsOfKeys np tok p
        (fun kv2 hm hs => h kv2 (List.mem_cons_of_mem _ hm) hs)
      have hkeys : propKeys (kv :: p) = kv.1 :: propKeys p := rfl
      rw [hkeys, bindsOfKeys_cons, obsBinds_cons]
      by_cases h1 : startsOn kv.1
      · rw [h kv (List.mem_cons_self _ _) h1]
        by_cases h2 : truthy kv.2
        · rw [if_pos (by simp [h1, h2]), if_pos (by simp [h1, h2]),
            obsListeners_cons_truthy h2, ht]
        · rw [if_neg (by simp [h2]), if_neg (by simp [h2]), ht]
      · rw [if_neg (by simp [h1]), if_neg (by simp [h1]), ht]

theorem diffProps_obs (env : CompEnv) (t nt : String) (op np : Props)
    (cs ncs : List VNode) (ctrl nctrl : Nat) (k nk : Option String) (eid : Nat)
    (dkids : List DNode) (st : St)
    (hp : PropsCoreEq op np) (hnd : (propKeys op).Nodup) :
    diffProps (.vElem t op cs ctrl k) (.vElem nt np ncs nctrl nk)
      (.dElem eid t (renderAcc eid ctrl op).attrs (renderAcc eid ctrl op).style
        (renderAcc eid ctrl op).val (renderAcc eid ctrl op).chk
        (renderAcc eid ctrl op).listeners dkids) st =
      some (.vElem t np cs st.fresh k,
            .dElem eid t (renderAcc eid ctrl op).attrs (renderAcc eid ctrl op).style
              (renderAcc eid ctrl op).val (renderAcc eid ctrl op).chk
              (bindsOfKeys (propKeys op) np st.fresh) dkids,
            ⟨st.fresh + 1, st.trace ++ [.abortTok ctrl, .mkTok st.fresh] ++
              (bindsOfKeys (propKeys op) np st.fresh).map
                (fun b => Eff.addListener eid b.1 b.2.1 b.2.2)⟩) ∧
    obsListeners (bindsOfKeys (propKeys op) np st.fresh) =
      obsListeners (renderAcc eid ctrl op).listeners := by
  constructor
  · unfold diffProps
    dsimp only
    have hkeys : dedupFirst (propKeys op ++ propKeys np) = propKeys op := by
      rw [← propsCoreEq_keys hp]
      exact dedupFirst_self_append _ hnd
    rw [hkeys]
    have hfl : (renderAcc eid ctrl op).listeners.filter
        (fun l => l.2.2 != ctrl) = [] := by
      rw [renderAcc_listeners]
      exact filter_ne_tok_nil (bindsOf_tok op ctrl)
    rw [hfl, foldl_dpStep_skip eid st.fresh hp]
    simp
  · rw [renderAcc_listeners, obsListeners_bindsOf,
      obsListeners_bindsOfKeys np st.fresh op]
    intro kv hm hs
    have h1 : kv.1 ≠ "style" := by
      intro hh
      rw [hh] at hs
      exact absurd hs (by decide)
    rw [← propsCoreEq_get_ne_style hp kv.1 h1]
    exact propGet_of_nodup op hnd kv hm

/-! ### Key-map facts used by the children differ -/

theorem khas_kset_self (m : KMap) (k : String) (v : Nat) :
    khas (kset m k v) k = true := by
  unfold khas
  rw [kget_kset_self]
  rfl

theorem khas_kset_of {m : KMap} {k2 : String} (h : khas m k2 = true)
    (k : String) (v : Nat) : khas (kset m k v) k2 = true := by
  by_cases hk : k2 = k
  · subst hk
    exact khas_kset_self m k2 v
  · unfold khas at *
    rw [kget_kset_ne m k v k2 hk]
    exact h

theorem buildKM_go_mono {k : String} :
    ∀ (cs : List VNode) (i : Nat) (m0 : KMap), khas m0 k = true →
      khas (buildKM.go cs i m0) k = true
  | [], _, m0, h => h
  | c :: cs, i, m0, h => by
      rw [buildKM.go]
      by_cases hc : keyTruthy (keyOf c)
      · rw [if_pos hc]
        exact buildKM_go_mono cs (i + 1) _ (khas_kset_of h _ _)
      · rw [if_neg hc]
        exact buildKM_go_mono cs (i + 1) m0 h

theorem buildKM_khas_aux :
    ∀ (cs : List VNode) (i : Nat) (m0 : KMap) (m : Nat) (h : m < cs.length),
      keyTruthy (keyOf (cs.get ⟨m, h⟩)) = true →
      khas (buildKM.go cs i m0) (keyStr (keyOf (cs.get ⟨m, h⟩))) = true
  | [], _, _, m, h, _ => absurd h (by simp)
  | c :: cs, i, m0, 0, h, htr => by
      rw [buildKM.go]
      simp only [List.get] at htr ⊢
      rw [if_pos htr]
      exact buildKM_go_mono cs (i + 1) _ (khas_kset_self m0 _ _)
  | c :: cs, i, m0, Nat.succ m, h, htr => by
      rw [buildKM.go]
      simp only [List.get] at htr ⊢
      by_cases hc : keyTruthy (keyOf c)
      · rw [if_pos hc]
        exact buildKM_khas_aux cs (i + 1) _ m (by simpa using h) htr
      · rw [if_neg hc]
        exact buildKM_khas_aux cs (i + 1) m0 m (by simpa using h) htr

theorem buildKM_khas (cs : List VNode) (m : Nat) (h : m < cs.length)
    (htr : keyTruthy (keyOf (cs.get ⟨m, h⟩)) = true) :
    khas (buildKM cs) (keyStr (keyOf (cs.get ⟨m, h⟩))) = true :=
  buildKM_khas_aux cs 0 [] m h htr

theorem mem_filterMap_of_truthy (cs : List VNode) (m : Nat) (h : m < cs.length)
    (htr : keyTruthy (keyOf (cs.get ⟨m, h⟩)) = true) :
    keyStr (keyOf (cs.get ⟨m, h⟩)) ∈ cs.filterMap truthyKeyOf :=
  List.mem_filterMap.2 ⟨cs.get ⟨m, h⟩, List.get_mem cs m h,
    by unfold truthyKeyOf; rw [if_pos htr]⟩

theorem sibKeys_distinct :
    ∀ (cs : List VNode), siblingKeysNodup cs →
    ∀ i j (hi : i < cs.length) (hj : j < cs.length), i ≠ j →
      keyTruthy (keyOf (cs.get ⟨i, hi⟩)) = true →
      keyTruthy (keyOf (cs.get ⟨j, hj⟩)) = true →
      keyStr (keyOf (cs.get ⟨i, hi⟩)) ≠ keyStr (keyOf (cs.get ⟨j, hj⟩))
  | [], _, i, j, hi, _, _, _, _ => absurd hi (by simp)
  | c :: cs, hnd, 0, 0, _, _, hne, _, _ => absurd rfl hne
  | c :: cs, hnd, 0, Nat.succ j, hi, hj, _, hti, htj => by
      simp only [List.get] at hti htj ⊢
      have hndc : keyStr (keyOf c) ∉ cs.filterMap truthyKeyOf := by
        unfold siblingKeysNodup at hnd
        rw [List.filterMap_cons] at hnd
        unfold truthyKeyOf at hnd
        rw [if_pos hti] at hnd
        exact (List.nodup_cons.1 hnd).1
      intro hh
      exact hndc (hh ▸ mem_filterMap_of_truthy cs j (by simpa using hj) htj)
  | c :: cs, hnd, Nat.succ i, 0, hi, hj, _, hti, htj => by
      simp only [List.get] at hti htj ⊢
      have hndc : keyStr (keyOf c) ∉ cs.filterMap truthyKeyOf := by
        unfold siblingKeysNodup at hnd
        rw [List.filterMap_cons] at hnd
        unfold truthyKeyOf at hnd
        rw [if_pos htj] at hnd
        exact (List.nodup_cons.1 hnd).1
      intro hh
      exact hndc (hh ▸ mem_filterMap_of_truthy cs i (by simpa using hi) hti)
  | c :: cs, hnd, Nat.succ i, Nat.succ j, hi, hj, hne, hti, htj => by
      simp only [List.get] at hti htj ⊢
      have hnd2 : siblingKeysNodup cs := by
        unfold siblingKeysNodup at hnd ⊢
        rw [List.filterMap_cons] at hnd
        cases htk : truthyKeyOf c with
        | none => rw [htk] at hnd; exact hnd
        | some s => rw [htk] at hnd; exact (List.nodup_cons.1 hnd).2
      exact sibKeys_distinct cs hnd2 i j (by simpa using hi) (by simpa using hj)
        (fun hh => hne (by rw [hh])) hti htj

theorem filterMap_truthyKey_set (vs : List VNode) (i : Nat) (v2 : VNode)
    (h : i < vs.length) (hk : keyOf v2 = keyOf (vs.get ⟨i, h⟩)) :
    (vs.set i v2).filterMap truthyKeyOf = vs.filterMap truthyKeyOf := by
  apply filterMap_truthyKey_congr
  · simp
  · intro m h1 h2
    by_cases hm : m = i
    · subst hm
      have : (vs.set m v2).get ⟨m, h1⟩ = v2 := by simp
      rw [this, hk]
    · have : (vs.set i v2).get ⟨m, h1⟩ = vs.get ⟨m, h2⟩ := by
        simp [List.getElem_set_of_ne (fun hh => hm hh.symm)]
      rw [this]

/-! ### The removal pass is the identity when every key survives -/

theorem removeAbsent_all_present :
    ∀ (vs : List VNode) (ds : List DNode) (okm : KMap) (i : Nat) (nkm : KMap),
      (∀ m (h : m < vs.length), keyTruthy (keyOf (vs.get ⟨m, h⟩)) = true →
        khas nkm (keyStr (keyOf (vs.get ⟨m, h⟩))) = true) →
      (vs.filterMap truthyKeyOf).Nodup →
      ∃ okm2, removeAbsent nkm vs ds okm i = some (vs, ds, okm2) ∧
        (∀ m (h : m < vs.length), keyTruthy (keyOf (vs.get ⟨m, h⟩)) = true →
          kget okm2 (keyStr (keyOf (vs.get ⟨m, h⟩))) = some (i + m)) ∧
        (∀ k, k ∉ vs.filterMap truthyKeyOf → kget okm2 k = kget okm k)
  | [], ds, okm, i, nkm, _, _ => by
      refine ⟨okm, ?_, ?_, ?_⟩
      · rfl
      · intro m h
        exact absurd h (by simp)
      · intro k _
        rfl
  | v :: vs, ds, okm, i, nkm, hall, hnd => by
      have hnd2 : (vs.filterMap truthyKeyOf).Nodup := by
        rw [List.filterMap_cons] at hnd
        cases htk : truthyKeyOf v with
        | none => rw [htk] at hnd; exact hnd
        | some s => rw [htk] at hnd; exact (List.nodup_cons.1 hnd).2
      have hall2 : ∀ m (h : m < vs.length), keyTruthy (keyOf (vs.get ⟨m, h⟩)) = true →
          khas nkm (keyStr (keyOf (vs.get ⟨m, h⟩))) = true := by
        intro m h htr
        have := hall (m + 1) (by simpa using Nat.succ_lt_succ h)
        simp only [List.get] at this
        exact this htr
      by_cases htv : keyTruthy (keyOf v)
      · have hha : khas nkm (keyStr (keyOf v)) = true := by
          have := hall 0 (by simp)
          simp only [List.get] at this
          exact this htv
        obtain ⟨okm2, hrec, hset, hpres⟩ :=
          removeAbsent_all_present vs (ds.tail) (kset okm (keyStr (keyOf v)) i)
            (i + 1) nkm hall2 hnd2
        have hnotin : keyStr (keyOf v) ∉ vs.filterMap truthyKeyOf := by
          rw [List.filterMap_cons] at hnd
          unfold truthyKeyOf at hnd
          rw [if_pos htv] at hnd
          exact (List.nodup_cons.1 hnd).1
        refine ⟨okm2, ?_, ?_, ?_⟩
        · rw [removeAbsent.eq_def]
          dsimp only
          rw [if_neg (by simp [htv, hha]), if_pos htv]
          cases ds with
          | nil =>
              simp only [List.tail] at hrec
              simp [hrec]
          | cons dh dt =>
              simp only [List.tail] at hrec
              simp [hrec]
        · intro m h htr
          cases m with
          | zero =>
              simp only [List.get] at htr ⊢
              rw [hpres _ hnotin, kget_kset_self]
              simp
          | succ m =>
              simp only [List.get] at htr ⊢
              have := hset m (by simpa using h) htr
              rw [this]
              simp
              omega
        · intro k hk
          have hk2 : k ∉ vs.filterMap truthyKeyOf := by
            intro hh
            apply hk
            rw [List.filterMap_cons]
            unfold truthyKeyOf
            rw [if_pos htv]
            exact List.mem_cons_of_mem _ hh
          have hkv : k ≠ keyStr (keyOf v) := by
            intro hh
            apply hk
            rw [List.filterMap_cons]
            unfold truthyKeyOf
            rw [if_pos htv]
            exact hh ▸ List.mem_cons_self _ _
          rw [hpres k hk2, kget_kset_ne okm _ i k hkv]
      · obtain ⟨okm2, hrec, hset, hpres⟩ :=
          removeAbsent_all_present vs (ds.tail) okm (i + 1) nkm hall2 hnd2
        refine ⟨okm2, ?_, ?_, ?_⟩
        · rw [removeAbsent.eq_def]
          dsimp only
          rw [if_neg (by simp [htv]), if_neg htv]
          cases ds with
          | nil =>
              simp only [List.tail] at hrec
              simp [hrec]
          | cons dh dt =>
              simp only [List.tail] at hrec
              simp [hrec]
        · intro m h htr
          cases m with
          | zero =>
              simp only [List.get] at htr
              exact absurd htr (by simp [htv])
          | succ m =>
              simp only [List.get] at htr ⊢
              have := hset m (by simpa using h) htr
              rw [this]
              simp
              omega
        · intro k hk
          have hk2 : k ∉ vs.filterMap truthyKeyOf := by
            intro hh
            apply hk
            rw [List.filterMap_cons]
            unfold truthyKeyOf
            rw [if_neg htv]
            exact hh
          exact hpres k hk2

/-! ### Pointwise-equal observations -/

theorem obsList_set : ∀ (ds : List DNode) (i : Nat) (d2 : DNode)
    (h : i < ds.length), obs d2 = obs (ds.get ⟨i, h⟩) →
    obs.obsList (ds.set i d2) = obs.obsList ds
  | [], i, _, h, _ => absurd h (by simp)
  | d :: ds, 0, d2, _, hob => by
      simp only [List.get] at hob
      simp only [List.set, obs.obsList, hob]
  | d :: ds, Nat.succ i, d2, h, hob => by
      simp only [List.get] at hob
      simp only [List.set, obs.obsList]
      rw [obsList_set ds i d2 (by simpa using h) hob]

/-! ### The idempotence engine: diffing a structurally equal copy leaves the
render target observably unchanged -/

mutual

theorem diffObs : ∀ (fuel : Nat) {env : CompEnv} {old new_ : VNode} {d : DNode}
    {st : St} {out}, PureEnv env → WFr old → Agree env old d → CoreEq old new_ →
    diff env fuel old new_ d st = some out → obs out.2.1 = obs d
  | 0, _, old, new_, d, st, out, _, _, _, _, h => absurd h (by simp [diff_zero])
  | Nat.succ fuel, env, old, new_, d, st, out, hPure, hWF, hAg, hCE, h => by
      rw [diff_succ] at h
      cases hCE with
      | prim v k =>
          cases hAg with
          | prim _ _ i =>
              try dsimp only at h
              rw [if_pos (strictEq_refl v)] at h
              simp only [Option.some.injEq] at h
              rw [← h]
      | elem t p q cs ds2 c c2 k hp hlen hc =>
          cases hAg with
          | elem _ _ _ _ _ i pkids hklen hkAg =>
              dsimp only at h
              have hnd : (propKeys p).Nodup := by
                cases hWF with
                | elem _ _ _ _ _ hnd2 _ _ => exact hnd2
              obtain ⟨heq, hobsl⟩ := diffProps_obs env t t p q cs ds2 c c2 k k i pkids st hp hnd
              rw [heq] at h
              dsimp only at h
              split at h
              · exact absurd h (by simp)
              · rename_i cs2 d2 st2 hdc
                simp only [Option.some.injEq] at h
                have hWFkids : ∀ x ∈ cs, WFr x := by
                  cases hWF with
                  | elem _ _ _ _ _ _ _ hk => exact hk
                have hsib : siblingKeysNodup cs := by
                  cases hWF with
                  | elem _ _ _ _ _ _ hs _ => exact hs
                have hobs2 := diffChildrenObs fuel hPure hWFkids hsib hlen
                  hklen.symm hc hkAg hdc
                rw [← h]
                dsimp only
                rw [hobs2]
                unfold obs
                rw [hobsl]
      | func r p q top top2 k hp =>
          cases hAg with
          | func _ _ topN _ _ hCEenv hAgTop =>
              dsimp only at h
              split at h
              · simp only [Option.some.injEq] at h
                rw [← h]
              · try dsimp only at h
                split at h
                · exact absurd h (by simp)
                · rename_i t2 d2 st2 hd
                  simp only [Option.some.injEq] at h
                  have hWFtop : WFr topN := by
                    cases hWF with
                    | func _ _ _ _ _ htops => exact htops topN rfl
                  have hCEtop : CoreEq topN (env r q) :=
                    coreEq_trans (coreEq_symm hCEenv) (hPure r p q hp)
                  have := diffObs fuel hPure hWFtop hAgTop hCEtop hd
                  rw [← h]
                  exact this

theorem diffChildrenObs : ∀ (fuel : Nat) {env : CompEnv} {cs ns : List VNode}
    {pid : Nat} {pt : String} {pa psty : List (String × String)} {pv : String}
    {pc : Bool} {pls : List (String × Value × Nat)} {pkids : List DNode}
    {st : St} {out},
    PureEnv env → (∀ x ∈ cs, WFr x) → siblingKeysNodup cs →
    cs.length = ns.length → pkids.length = cs.length →
    (∀ i (h1 : i < cs.length) (h2 : i < ns.length),
      CoreEq (cs.get ⟨i, h1⟩) (ns.get ⟨i, h2⟩)) →
    (∀ i (h1 : i < cs.length) (h2 : i < pkids.length),
      Agree env (cs.get ⟨i, h1⟩) (pkids.get ⟨i, h2⟩)) →
    diffChildren env fuel cs ns (.dElem pid pt pa psty pv pc pls pkids) st = some out →
    obs out.2.1 = obs (.dElem pid pt pa psty pv pc pls pkids)
  | 0, _, cs, ns, pid, pt, pa, psty, pv, pc, pls, pkids, st, out,
      _, _, _, _, _, _, _, h => absurd h (by simp [diffChildren_zero])
  | Nat.succ fuel, env, cs, ns, pid, pt, pa, psty, pv, pc, pls, pkids, st, out,
      hPure, hWFk, hsib, hlen, hklen, hCE, hAg, h => by
      rw [diffChildren_succ] at h
      try dsimp only at h
      by_cases hcs0 : cs.length == 0
      · rw [if_pos hcs0] at h
        have hcs : cs = [] := List.eq_nil_of_length_eq_zero (by simpa using hcs0)
        have hns : ns = [] := List.eq_nil_of_length_eq_zero
          (by rw [← hlen]; simpa using hcs0)
        rw [hns] at h
        rw [show appendNew env fuel [] pkids st = some ([], pkids, st) from rfl] at h
        try dsimp only at h
        simp only [Option.some.injEq] at h
        rw [← h]
      · rw [if_neg hcs0] at h
        have hns0 : (ns.length == 0) = false := by
          rw [← hlen]
          simpa using hcs0
        rw [hns0] at h
        rw [if_neg (by simp)] at h
        have hall : ∀ m (hm : m < cs.length),
            keyTruthy (keyOf (cs.get ⟨m, hm⟩)) = true →
            khas (buildKM ns) (keyStr (keyOf (cs.get ⟨m, hm⟩))) = true := by
          intro m hm htr
          have hk := coreEq_keyOf (hCE m hm (hlen ▸ hm))
          rw [hk] at htr ⊢
          exact buildKM_khas ns m (hlen ▸ hm) htr
        obtain ⟨okm2, hra, hokm, _⟩ :=
          removeAbsent_all_present cs pkids (buildKM cs) 0 (buildKM ns) hall hsib
        rw [hra] at h
        dsimp only at h
        split at h
        · exact absurd h (by simp)
        · rename_i vs2 ds2 removed st2 hml
          have hloop := mainLoopObs fuel hPure hlen hklen hsib
            (fun m h1 _ => hWFk _ (List.get_mem cs m h1))
            (fun m h1 h2 _ => hCE m h1 h2)
            (fun m h1 h2 _ => hAg m h1 h2)
            (fun m h1 _ htr => by
              have := hokm m h1 htr
              simpa using this)
            hml
          have hrem : removed = 0 := hloop.2
          have hds2 : obs.obsList ds2 = obs.obsList pkids := hloop.1
          rw [hrem] at h
          rw [show trailing 0 vs2 ds2 = some (vs2, ds2) from rfl] at h
          try dsimp only at h
          simp only [Option.some.injEq] at h
          rw [← h]
          dsimp only
          unfold obs
          rw [hds2]

theorem mainLoopObs : ∀ (fuel : Nat) {env : CompEnv} {i : Nat} {vs ns : List VNode}
    {ds : List DNode} {okm : KMap} {removed : Nat} {st : St} {out},
    PureEnv env →
    vs.length = ns.length → ds.length = vs.length →
    siblingKeysNodup vs →
    (∀ m (h1 : m < vs.length), i ≤ m → WFr (vs.get ⟨m, h1⟩)) →
    (∀ m (h1 : m < vs.length) (h2 : m < ns.length), i ≤ m →
      CoreEq (vs.get ⟨m, h1⟩) (ns.get ⟨m, h2⟩)) →
    (∀ m (h1 : m < vs.length) (h2 : m < ds.length), i ≤ m →
      Agree env (vs.get ⟨m, h1⟩) (ds.get ⟨m, h2⟩)) →
    (∀ m (h1 : m < vs.length), i ≤ m → keyTruthy (keyOf (vs.get ⟨m, h1⟩)) = true →
      kget okm (keyStr (keyOf (vs.get ⟨m, h1⟩))) = some m) →
    mainLoop env fuel i vs ns ds okm removed st = some out →
    obs.obsList out.2.1 = obs.obsList ds ∧ out.2.2.1 = removed
  | 0, _, i, vs, ns, ds, okm, removed, st, out, _, _, _, _, _, _, _, _, h =>
      absurd h (by simp [mainLoop_zero])
  | Nat.succ fuel, env, i, vs, ns, ds, okm, removed, st, out,
      hPure, hlen, hdlen, hsib, hWF, hCE, hAg, hokm, h => by
      rw [mainLoop_succ] at h
      by_cases hi : i < max vs.length ns.length
      · rw [if_pos hi] at h
        have hiv : i < vs.length := by
          rw [hlen] at hi ⊢
          simpa using hi
        have hin : i < ns.length := hlen ▸ hiv
        have hid : i < ds.length := hdlen ▸ hiv
        rw [List.getElem?_eq_getElem hin] at h
        dsimp only at h
        rw [List.getElem?_eq_getElem hiv] at h
        dsimp only at h
        have hCEi : CoreEq (vs.get ⟨i, hiv⟩) (ns.get ⟨i, hin⟩) :=
          hCE i hiv hin (le_refl i)
        have hkeq : keyOf (ns.get ⟨i, hin⟩) = keyOf (vs.get ⟨i, hiv⟩) :=
          (coreEq_keyOf hCEi).symm
        have hget : ns[i] = ns.get ⟨i, hin⟩ := by simp [List.get_eq_getElem]
        have hgetv : vs[i] = vs.get ⟨i, hiv⟩ := by simp [List.get_eq_getElem]
        rw [hget, hgetv] at h
        have hred : (if keyTruthy (keyOf (ns.get ⟨i, hin⟩)) = true then
            kget okm (keyStr (keyOf (ns.get ⟨i, hin⟩))) else none) = none ∨
            (if keyTruthy (keyOf (ns.get ⟨i, hin⟩)) = true then
            kget okm (keyStr (keyOf (ns.get ⟨i, hin⟩))) else none) = some i := by
          by_cases htr : keyTruthy (keyOf (ns.get ⟨i, hin⟩)) = true
          · right
            rw [if_pos htr, hkeq]
            exact hokm i hiv (le_refl i) (hkeq ▸ htr)
          · left
            rw [if_neg htr]
        have hrest : loopRest env fuel i vs ns ds okm removed st
            (vs.get ⟨i, hiv⟩) (ns.get ⟨i, hin⟩) = some out := by
          rcases hred with hr | hr
          · rw [hr] at h
            exact h
          · rw [hr] at h
            dsimp only at h
            rw [if_neg (by simp)] at h
            exact h
        clear h
        rw [loopRest_eq] at hrest
        dsimp only at hrest
        have hnr : needsRepl (vs.get ⟨i, hiv⟩) (ns.get ⟨i, hin⟩) = false :=
          coreEq_needsRepl hCEi
        rw [if_neg (by rw [hnr]; simp)] at hrest
        rw [List.getElem?_eq_getElem hid] at hrest
        dsimp only at hrest
        have hgd : ds[i] = ds.get ⟨i, hid⟩ := by simp [List.get_eq_getElem]
        rw [hgd] at hrest
        split at hrest
        · exact absurd hrest (by simp)
        · rename_i v2 d2 st2 hdiff
          have hobs := diffObs fuel hPure (hWF i hiv (le_refl i))
            (hAg i hiv hid (le_refl i)) hCEi hdiff
          have hparts := diff_parts fuel hdiff
          have hkeep : keyOf v2 = keyOf (vs.get ⟨i, hiv⟩) := hparts.2
          have hrec := @mainLoopObs fuel env (i + 1) (vs.set i v2) ns
            (ds.set i d2)
            (if keyTruthy (keyOf (vs.get ⟨i, hiv⟩)) = true then
              kdel okm (keyStr (keyOf (vs.get ⟨i, hiv⟩))) else okm)
            removed st2 out hPure
            (by simpa using hlen)
            (by simpa using hdlen)
            (by
              unfold siblingKeysNodup
              rw [filterMap_truthyKey_set vs i v2 hiv hkeep]
              exact hsib)
            (fun m h1 hm => by
              have h1v : m < vs.length := by simpa using h1
              have hne : i ≠ m := by omega
              have : (vs.set i v2).get ⟨m, h1⟩ = vs.get ⟨m, h1v⟩ := by
                simp [List.getElem_set_of_ne hne]
              rw [this]
              exact hWF m h1v (by omega))
            (fun m h1 h2 hm => by
              have h1v : m < vs.length := by simpa using h1
              have hne : i ≠ m := by omega
              have : (vs.set i v2).get ⟨m, h1⟩ = vs.get ⟨m, h1v⟩ := by
                simp [List.getElem_set_of_ne hne]
              rw [this]
              exact hCE m h1v h2 (by omega))
            (fun m h1 h2 hm => by
              have h1v : m < vs.length := by simpa using h1
              have h2d : m < ds.length := by simpa using h2
              have hne : i ≠ m := by omega
              have e1 : (vs.set i v2).get ⟨m, h1⟩ = vs.get ⟨m, h1v⟩ := by
                simp [List.getElem_set_of_ne hne]
              have e2 : (ds.set i d2).get ⟨m, h2⟩ = ds.get ⟨m, h2d⟩ := by
                simp [List.getElem_set_of_ne hne]
              rw [e1, e2]
              exact hAg m h1v h2d (by omega))
            (fun m h1 hm htr => by
              have h1v : m < vs.length := by simpa using h1
              have hne : i ≠ m := by omega
              have e1 : (vs.set i v2).get ⟨m, h1⟩ = vs.get ⟨m, h1v⟩ := by
                simp [List.getElem_set_of_ne hne]
              rw [e1] at htr ⊢
              by_cases hto : keyTruthy (keyOf (vs.get ⟨i, hiv⟩))
              · rw [if_pos hto]
                have hkne : keyStr (keyOf (vs.get ⟨m, h1v⟩)) ≠
                    keyStr (keyOf (vs.get ⟨i, hiv⟩)) :=
                  sibKeys_distinct vs hsib m i h1v hiv (by omega) htr hto
                rw [kget_kdel_ne okm _ _ hkne]
                exact hokm m h1v (by omega) htr
              · rw [if_neg hto]
                exact hokm m h1v (by omega) htr)
            hrest
          refine ⟨?_, hrec.2⟩
          rw [hrec.1]
          exact obsList_set ds i d2 hid hobs
      · rw [if_neg hi] at h
        simp only [Option.some.injEq] at h
        rw [← h]
        exact ⟨rfl, rfl⟩

end

/-! ### Claim theorems -/

/-- Accessors used in claim statements. -/
def DNode.attrsOf : DNode → List (String × String)
  | .dText _ _ => []
  | .dElem _ _ a _ _ _ _ _ => a

def DNode.styleOf : DNode → List (String × String)
  | .dText _ _ => []
  | .dElem _ _ _ sty _ _ _ _ => sty

def DNode.kidsOf : DNode → List DNode
  | .dText _ _ => []
  | .dElem _ _ _ _ _ _ _ kids => kids

/-- A trivial constant component environment used in concrete witnesses. -/
def env0 : CompEnv := fun _ _ => .vElem "div" [] [] 0 none

theorem env0_pure : PureEnv env0 := by
  intro r p q _
  exact CoreEq.elem "div" [] [] [] [] 0 0 none List.Forall₂.nil rfl
    (fun i h1 _ => absurd h1 (by simp))

theorem env0_wf : EnvWF env0 := by
  intro r p
  exact WFr.elem "div" [] [] 0 none (by simp [propKeys])
    (by simp [siblingKeysNodup]) (fun x hx => absurd hx (by simp))

/-- C2.  Diffing a rendered tree against a structurally equal copy (equal
primitive values, identical handler references, structurally equal style
objects, equal keys, same kinds/tags/function references position by
position) leaves the render target observably identical: no attribute,
style, text, `value`/`checked` or listener-pair change, and no child node
created, removed, replaced or reordered (`obs` equality). -/
theorem c2_diff_idempotent {env : CompEnv} {T Tc Tr : VNode} {R : DNode}
    {fuelR fuelD : Nat} {st0 st1 st : St} {out}
    (hPure : PureEnv env) (hEnvWF : EnvWF env) (hWF : WFr T)
    (hrender : render env fuelR T st0 = some (Tr, R, st1))
    (hcopy : CoreEq T Tc)
    (hdiff : diff env fuelD Tr Tc R st = some out) :
    obs out.2.1 = obs R := by
  obtain ⟨hAg, hCE, hW⟩ := render_sound fuelR hEnvWF hrender
  exact diffObs fuelD hPure (hW hWF) hAg (coreEq_trans (coreEq_symm hCE) hcopy) hdiff

/-- C3.  For a component node whose old props carry a truthy `lazy` marker:
if the stringify comparison reports the props equal, the diff returns with
the node, its expansion and the render target untouched and no component
invocation; otherwise the new component function is invoked exactly once
with the new props (the single `invokeFn` effect), `old.props` is replaced
by the new props, and the fresh expansion is diffed recursively against the
stored one. -/
theorem c3_lazy_component {env : CompEnv} {fuel : Nat} {r r2 : Nat}
    {p p2 : Props} {top : VNode} {ntop : Option VNode} {k k2 : Option String}
    {d : DNode} {st : St}
    (hlazy : truthy (propGet p "lazy") = true) :
    (jsonPropsEq p p2 = true →
      diff env (Nat.succ fuel) (.vFunc r p (some top) k) (.vFunc r2 p2 ntop k2) d st =
        some (.vFunc r p (some top) k, d, st)) ∧
    (jsonPropsEq p p2 = false → ∀ out,
      diff env (Nat.succ fuel) (.vFunc r p (some top) k) (.vFunc r2 p2 ntop k2) d st =
        some out →
      ∃ t2 d2 st2,
        diff env fuel top (env r2 p2) d
          ⟨st.fresh, st.trace ++ [.invokeFn r2 p2]⟩ = some (t2, d2, st2) ∧
        out = (.vFunc r p2 (some t2) k, d2, st2)) := by
  constructor
  · intro hj
    rw [diff_succ]
    dsimp only
    rw [if_pos (by simp [hlazy, hj])]
  · intro hj out h
    rw [diff_succ] at h
    dsimp only at h
    rw [if_neg (by simp [hj])] at h
    split at h
    · exact absurd h (by simp)
    · rename_i t2 d2 st2 hd
      simp only [Option.some.injEq] at h
      exact ⟨t2, d2, st2, hd, h.symm⟩

/-- C9.  The tree constructor errors exactly when its first argument is
neither a string nor a function; a function yields a component node with
the props entries stored verbatim and no expansion; a string yields an
element node whose listener-lifetime token is freshly allocated (and, in a
well-formed state, was never invalidated), while the render target is never
touched (the only emitted effect is the token allocation). -/
theorem c9_constructor (t : Value) (bag : Bag) (key : Option String) (st : St) :
    ((∃ msg, parseJSXToEldoraNode t bag key st = .error msg) ↔
      ((∀ r, t ≠ .vFun r) ∧ (∀ s2, t ≠ .vStr s2))) ∧
    (∀ r, t = .vFun r →
      parseJSXToEldoraNode t bag key st = .ok (.vFunc r bag.entries none key, st)) ∧
    (∀ s2, t = .vStr s2 →
      parseJSXToEldoraNode t bag key st =
        .ok (.vElem s2 bag.entries (normalizeChildren bag.children) st.fresh key,
             ⟨st.fresh + 1, st.trace ++ [.mkTok st.fresh]⟩) ∧
      (WFSt st →
        ∀ e ∈ st.trace ++ [Eff.mkTok st.fresh], Eff.abortsTok e st.fresh = false)) := by
  refine ⟨⟨?_, ?_⟩, ?_, ?_⟩
  · intro ⟨msg, hmsg⟩
    cases t <;> simp_all [parseJSXToEldoraNode]
  · intro ⟨hf, hs⟩
    cases t <;> first
      | exact absurd rfl (hf _)
      | exact absurd rfl (hs _)
      | exact ⟨"Invalid JSX node", rfl⟩
  · intro r hr
    subst hr
    rfl
  · intro s2 hs2
    subst hs2
    refine ⟨rfl, ?_⟩
    intro hwf e he
    rcases List.mem_append.1 he with hm | hm
    · exact hwf st.fresh (le_refl _) e hm
    · rw [List.mem_singleton.1 hm]
      rfl

/-- C8.  The renderer does not populate a `ref` object and never invokes its
`onMount` callback: a `ref` prop falls through to the generic-attribute
branch and is written as the attribute string `"[object Object]"` (the
emitted trace contains no callback invocation at all). -/
theorem c8_ref_ignored :
    render env0 5
      (.vElem "input"
        [("ref", .vObj 3 [("current", .vNull), ("onMount", .vFun 9)])] [] 4 none)
      ⟨0, []⟩ =
    some (.vElem "input"
            [("ref", .vObj 3 [("current", .vNull), ("onMount", .vFun 9)])] [] 4 none,
          .dElem 0 "input" [("ref", "[object Object]")] [] "" false [] [],
          ⟨1, []⟩) := by
  simp [render_succ, renderList_succ, renderAcc, renderStep, jsString, setAttr,
    show startsOn "ref" = false from by decide]

theorem c2_diff_idempotent_witness :
    PureEnv env0 ∧ EnvWF env0 ∧
    WFr (.vElem "div" [("className", .vStr "x")] [.vPrim (.vStr "hi") none] 7 none) ∧
    render env0 3 (.vElem "div" [("className", .vStr "x")]
        [.vPrim (.vStr "hi") none] 7 none) ⟨0, []⟩ =
      some (.vElem "div" [("className", .vStr "x")] [.vPrim (.vStr "hi") none] 7 none,
            .dElem 0 "div" [("class", "x")] [] "" false [] [.dText 1 "hi"], ⟨2, []⟩) ∧
    CoreEq (.vElem "div" [("className", .vStr "x")] [.vPrim (.vStr "hi") none] 7 none)
      (.vElem "div" [("className", .vStr "x")] [.vPrim (.vStr "hi") none] 99 none) ∧
    diff env0 10 (.vElem "div" [("className", .vStr "x")]
        [.vPrim (.vStr "hi") none] 7 none)
      (.vElem "div" [("className", .vStr "x")] [.vPrim (.vStr "hi") none] 99 none)
      (.dElem 0 "div" [("class", "x")] [] "" false [] [.dText 1 "hi"]) ⟨2, []⟩ =
      some (.vElem "div" [("className", .vStr "x")] [.vPrim (.vStr "hi") none] 2 none,
            .dElem 0 "div" [("class", "x")] [] "" false [] [.dText 1 "hi"],
            ⟨3, [.abortTok 7, .mkTok 2]⟩) ∧
    obs (.dElem 0 "div" [("class", "x")] [] "" false [] [.dText 1 "hi"]) =
      obs (.dElem 0 "div" [("class", "x")] [] "" false [] [.dText 1 "hi"]) := by
  have hWF : WFr (.vElem "div" [("className", .vStr "x")]
      [.vPrim (.vStr "hi") none] 7 none) := by
    refine WFr.elem _ _ _ _ _ (by simp [propKeys]) (by simp [siblingKeysNodup,
      List.filterMap, truthyKeyOf, keyOf, keyTruthy]) ?_
    intro x hx
    rw [List.mem_singleton.1 hx]
    exact WFr.prim _ _
  have hcopy : CoreEq (.vElem "div" [("className", .vStr "x")]
      [.vPrim (.vStr "hi") none] 7 none)
      (.vElem "div" [("className", .vStr "x")] [.vPrim (.vStr "hi") none] 99 none) := by
    refine CoreEq.elem _ _ _ _ _ _ _ _ ?_ rfl ?_
    · exact List.Forall₂.cons ⟨rfl, by simp [pentry]⟩ List.Forall₂.nil
    · intro i h1 h2
      cases i with
      | zero => exact CoreEq.prim _ _
      | succ n => simp at h1
  have hrender : render env0 3 (.vElem "div" [("className", .vStr "x")]
      [.vPrim (.vStr "hi") none] 7 none) ⟨0, []⟩ =
      some (.vElem "div" [("className", .vStr "x")] [.vPrim (.vStr "hi") none] 7 none,
            .dElem 0 "div" [("class", "x")] [] "" false [] [.dText 1 "hi"], ⟨2, []⟩) := by
    simp [render_succ, renderList_succ, renderAcc, renderStep, jsString, setAttr,
      show startsOn "className" = false from by decide]
  have hdiff : diff env0 10 (.vElem "div" [("className", .vStr "x")]
        [.vPrim (.vStr "hi") none] 7 none)
      (.vElem "div" [("className", .vStr "x")] [.vPrim (.vStr "hi") none] 99 none)
      (.dElem 0 "div" [("class", "x")] [] "" false [] [.dText 1 "hi"]) ⟨2, []⟩ =
      some (.vElem "div" [("className", .vStr "x")] [.vPrim (.vStr "hi") none] 2 none,
            .dElem 0 "div" [("class", "x")] [] "" false [] [.dText 1 "hi"],
            ⟨3, [.abortTok 7, .mkTok 2]⟩) := by
    simp [diff_succ, diffProps, diffChildren_succ, mainLoop_succ, loopRest_eq,
      removeAbsent, buildKM, buildKM.go, dedupFirst, propKeys, dpStep, propGet,
      strictEq, keyOf, keyTruthy, keyStr, needsRepl, trailing, jsString,
      show startsOn "className" = false from by decide]
  exact ⟨env0_pure, env0_wf, hWF, hrender, hcopy, hdiff,
    c2_diff_idempotent env0_pure env0_wf hWF hrender hcopy hdiff⟩

theorem c3_lazy_component_witness :
    truthy (propGet [("lazy", Value.vBool true), ("value", Value.vNum 5)] "lazy") = true ∧
    ((jsonPropsEq [("lazy", Value.vBool true), ("value", Value.vNum 5)]
        [("lazy", Value.vBool true), ("value", Value.vNum 6)] = true →
      diff env0 (Nat.succ 5)
        (.vFunc 3 [("lazy", .vBool true), ("value", .vNum 5)]
          (some (.vElem "div" [] [] 1 none)) none)
        (.vFunc 3 [("lazy", .vBool true), ("value", .vNum 6)] none none)
        (.dElem 0 "div" [] [] "" false [] []) ⟨10, []⟩ =
        some (.vFunc 3 [("lazy", .vBool true), ("value", .vNum 5)]
          (some (.vElem "div" [] [] 1 none)) none,
          .dElem 0 "div" [] [] "" false [] [], ⟨10, []⟩)) ∧
    (jsonPropsEq [("lazy", Value.vBool true), ("value", Value.vNum 5)]
        [("lazy", Value.vBool true), ("value", Value.vNum 6)] = false → ∀ out,
      diff env0 (Nat.succ 5)
        (.vFunc 3 [("lazy", .vBool true), ("value", .vNum 5)]
          (some (.vElem "div" [] [] 1 none)) none)
        (.vFunc 3 [("lazy", .vBool true), ("value", .vNum 6)] none none)
        (.dElem 0 "div" [] [] "" false [] []) ⟨10, []⟩ = some out →
      ∃ t2 d2 st2,
        diff env0 5 (.vElem "div" [] [] 1 none)
          (env0 3 [("lazy", .vBool true), ("value", .vNum 6)])
          (.dElem 0 "div" [] [] "" false [] [])
          ⟨(10 : Nat), [] ++ [.invokeFn 3 [("lazy", .vBool true), ("value", .vNum 6)]]⟩ =
          some (t2, d2, st2) ∧
        out = (.vFunc 3 [("lazy", .vBool true), ("value", .vNum 6)] (some t2) none,
               d2, st2))) :=
  ⟨rfl, c3_lazy_component rfl⟩

/-- C1.  Reconciling keyed children `[A(1), B(2), C(3)]` against
`[C(3), A(1), B(2)]` (pairs of same-keyed children of the same kind/tag,
distinct render-target nodes): the parent ends with its render-target
children in the order `[C, A, B]`, each being the very same node object
(same identity) as before the diff, and the old sequence has been reordered
in place to match the new sequence (keys now `3, 1, 2`). -/
theorem c1_keyed_swap_stability {env : CompEnv} {fuel : Nat}
    {a b c a2 b2 c2 : VNode} {da db dc : DNode}
    {pid : Nat} {pt : String} {pa psty : List (String × String)} {pv : String}
    {pcb : Bool} {pls : List (String × Value × Nat)} {st : St} {out}
    (hka : keyOf a = some "1") (hkb : keyOf b = some "2") (hkc : keyOf c = some "3")
    (hka2 : keyOf a2 = some "1") (hkb2 : keyOf b2 = some "2") (hkc2 : keyOf c2 = some "3")
    (hsa : needsRepl a a2 = false) (hsb : needsRepl b b2 = false)
    (hsc : needsRepl c c2 = false)
    (hab : da.dId ≠ db.dId) (hac : da.dId ≠ dc.dId) (hbc : db.dId ≠ dc.dId)
    (hrun : diffChildren env fuel [a, b, c] [c2, a2, b2]
      (.dElem pid pt pa psty pv pcb pls [da, db, dc]) st = some out) :
    ∃ cr ar br d1 d2 d3 st2,
      out = ([cr, ar, br], .dElem pid pt pa psty pv pcb pls [d1, d2, d3], st2) ∧
      d1.dId = dc.dId ∧ d2.dId = da.dId ∧ d3.dId = db.dId ∧
      keyOf cr = some "3" ∧ keyOf ar = some "1" ∧ keyOf br = some "2" := by
  cases fuel with
  | zero => exact absurd hrun (by simp [diffChildren_zero])
  | succ f0 =>
  rw [diffChildren_succ] at hrun
  dsimp only at hrun
  rw [if_neg (by simp)] at hrun
  rw [if_neg (by simp)] at hrun
  have hnkm : buildKM [c2, a2, b2] = [("3", 0), ("1", 1), ("2", 2)] := by
    simp [buildKM, buildKM.go, hka2, hkb2, hkc2, keyTruthy, keyStr, kset]
  have hokm0 : buildKM [a, b, c] = [("1", 0), ("2", 1), ("3", 2)] := by
    simp [buildKM, buildKM.go, hka, hkb, hkc, keyTruthy, keyStr, kset]
  have hra : removeAbsent (buildKM [c2, a2, b2]) [a, b, c] [da, db, dc]
      (buildKM [a, b, c]) 0 =
      some ([a, b, c], [da, db, dc], [("1", 0), ("2", 1), ("3", 2)]) := by
    simp [removeAbsent, hnkm, hokm0, hka, hkb, hkc, keyTruthy, keyStr, khas,
      kget, kset]
  rw [hra] at hrun
  dsimp only at hrun
  cases f0 with
  | zero => rw [mainLoop_zero] at hrun; exact absurd hrun (by simp)
  | succ f1 =>
  rw [mainLoop_succ] at hrun
  simp [hka, hkb, hkc, hka2, hkb2, hkc2, keyTruthy, keyStr, kget, kset, listSwap,
    domChildSwap, insertBefore, insBeforeId, hab, hac, hbc, Ne.symm hab,
    Ne.symm hac, Ne.symm hbc] at hrun
  cases hd1 : diff env f1 c c2 dc st with
  | none => rw [hd1] at hrun; exact absurd hrun (by simp)
  | some r1 =>
  obtain ⟨c1, dc1, st1⟩ := r1
  have hp1 := diff_parts f1 hd1
  rw [hd1] at hrun
  dsimp only at hrun
  cases f1 with
  | zero => rw [mainLoop_zero] at hrun; exact absurd hrun (by simp)
  | succ f2 =>
  rw [mainLoop_succ] at hrun
  simp [hka, hkb, hka2, hkb2, keyTruthy, keyStr, kget, kset, listSwap,
    domChildSwap, insertBefore, insBeforeId, hab, hbc, Ne.symm hab,
    Ne.symm hac, Ne.symm hbc, hp1.1] at hrun
  cases hd2 : diff env f2 a a2 da st1 with
  | none => rw [hd2] at hrun; exact absurd hrun (by simp)
  | some r2 =>
  obtain ⟨a1, da1, st2⟩ := r2
  have hp2 := diff_parts f2 hd2
  rw [hd2] at hrun
  dsimp only at hrun
  cases f2 with
  | zero => rw [mainLoop_zero] at hrun; exact absurd hrun (by simp)
  | succ f3 =>
  rw [mainLoop_succ] at hrun
  simp [hkb, hkb2, keyTruthy, keyStr, kget] at hrun
  rw [loopRest_eq] at hrun
  simp [hkb, keyTruthy, keyStr, kdel, hsb] at hrun
  cases hd3 : diff env f3 b b2 db st2 with
  | none => rw [hd3] at hrun; exact absurd hrun (by simp)
  | some r3 =>
  obtain ⟨b1, db1, st3⟩ := r3
  have hp3 := diff_parts f3 hd3
  rw [hd3] at hrun
  dsimp only at hrun
  cases f3 with
  | zero => rw [mainLoop_zero] at hrun; exact absurd hrun (by simp)
  | succ f4 =>
  rw [mainLoop_succ] at hrun
  simp [trailing] at hrun
  exact ⟨c1, a1, b1, dc1, da1, db1, st3, hrun.symm, hp1.1, hp2.1, hp3.1,
    hp1.2.trans hkc, hp2.2.trans hka, hp3.2.trans hkb⟩

set_option maxHeartbeats 1600000 in
/-- Concrete keyed-swap run: old children keyed `1, 2, 3`, new children keyed
`3, 1, 2`; the parent ends with its render-target children reordered to ids
`[2, 0, 1]` and the reordered old sequence carries keys `3, 1, 2`. -/
theorem c1_keyed_swap_stability_witness :
    diffChildren env0 20
        [.vElem "div" [] [] 100 (some "1"), .vElem "div" [] [] 101 (some "2"),
          .vElem "div" [] [] 102 (some "3")]
        [.vElem "div" [] [] 202 (some "3"), .vElem "div" [] [] 200 (some "1"),
          .vElem "div" [] [] 201 (some "2")]
        (.dElem 10 "div" [] [] "" false []
          [.dElem 0 "div" [] [] "" false [] [],
            .dElem 1 "div" [] [] "" false [] [],
            .dElem 2 "div" [] [] "" false [] []]) ⟨50, []⟩ =
      some ([.vElem "div" [] [] 50 (some "3"), .vElem "div" [] [] 51 (some "1"),
          .vElem "div" [] [] 52 (some "2")],
        .dElem 10 "div" [] [] "" false []
          [.dElem 2 "div" [] [] "" false [] [],
            .dElem 0 "div" [] [] "" false [] [],
            .dElem 1 "div" [] [] "" false [] []],
        ⟨53, [.abortTok 102, .mkTok 50, .abortTok 100, .mkTok 51, .abortTok 101,
          .mkTok 52]⟩) ∧
    (∃ cr ar br d1 d2 d3 st2,
      ([VNode.vElem "div" [] [] 50 (some "3"), VNode.vElem "div" [] [] 51 (some "1"),
          VNode.vElem "div" [] [] 52 (some "2")],
        DNode.dElem 10 "div" [] [] "" false []
          [DNode.dElem 2 "div" [] [] "" false [] [],
            DNode.dElem 0 "div" [] [] "" false [] [],
            DNode.dElem 1 "div" [] [] "" false [] []],
        (⟨53, [.abortTok 102, .mkTok 50, .abortTok 100, .mkTok 51, .abortTok 101,
          .mkTok 52]⟩ : St)) =
        ([cr, ar, br], DNode.dElem 10 "div" [] [] "" false [] [d1, d2, d3], st2) ∧
      d1.dId = 2 ∧ d2.dId = 0 ∧ d3.dId = 1 ∧
      keyOf cr = some "3" ∧ keyOf ar = some "1" ∧ keyOf br = some "2") := by
  have hrun : diffChildren env0 20
      [.vElem "div" [] [] 100 (some "1"), .vElem "div" [] [] 101 (some "2"),
        .vElem "div" [] [] 102 (some "3")]
      [.vElem "div" [] [] 202 (some "3"), .vElem "div" [] [] 200 (some "1"),
        .vElem "div" [] [] 201 (some "2")]
      (.dElem 10 "div" [] [] "" false []
        [.dElem 0 "div" [] [] "" false [] [],
          .dElem 1 "div" [] [] "" false [] [],
          .dElem 2 "div" [] [] "" false [] []]) ⟨50, []⟩ =
      some ([.vElem "div" [] [] 50 (some "3"), .vElem "div" [] [] 51 (some "1"),
          .vElem "div" [] [] 52 (some "2")],
        .dElem 10 "div" [] [] "" false []
          [.dElem 2 "div" [] [] "" false [] [],
            .dElem 0 "div" [] [] "" false [] [],
            .dElem 1 "div" [] [] "" false [] []],
        ⟨53, [.abortTok 102, .mkTok 50, .abortTok 100, .mkTok 51, .abortTok 101,
          .mkTok 52]⟩) := by
    simp [diff_succ, diffProps, diffChildren_succ, mainLoop_succ, loopRest_eq,
      removeAbsent, buildKM, buildKM.go, dedupFirst, propKeys, dpStep, propGet,
      strictEq, keyOf, keyTruthy, keyStr, needsRepl, trailing, jsString,
      domChildSwap, insertBefore, insBeforeId, listSwap, kset, kget, khas, kdel,
      DNode.dId, setAttr, appendNew]
  refine ⟨hrun, c1_keyed_swap_stability ?_ ?_ ?_ ?_ ?_ ?_ ?_ ?_ ?_ ?_ ?_ ?_ hrun⟩ <;>
    first
      | rfl
      | decide

/-- Counterexample to the original C4 statement.  An old `div` element child
with controller token `100` and a bound `click` listener under that token is
replaced by a new `span` child.  The replacement succeeds and installs a
freshly rendered `span` node, yet the resulting effect trace is empty: no
`abortTok 100` is ever emitted, so the replaced element's listener-lifetime
token is NOT invalidated by the replacement. -/
theorem c4_token_not_invalidated_counterexample :
    diffChildren env0 5 [.vElem "div" [("onClick", .vFun 7)] [] 100 none]
        [.vElem "span" [] [] 200 none]
        (.dElem 10 "div" [] [] "" false []
          [.dElem 0 "div" [] [] "" false [("click", .vFun 7, 100)] []])
        ⟨50, []⟩ =
      some ([.vElem "span" [] [] 200 none],
        .dElem 10 "div" [] [] "" false []
          [.dElem 50 "span" [] [] "" false [] []],
        ⟨51, []⟩) ∧
    List.all ([] : List Eff) (fun e => ! Eff.abortsTok e 100) = true := by
  constructor
  · simp [diff_succ, diffProps, diffChildren_succ, mainLoop_succ, loopRest_eq,
      removeAbsent, buildKM, buildKM.go, dedupFirst, propKeys, dpStep, propGet,
      strictEq, keyOf, keyTruthy, keyStr, needsRepl, trailing, jsString,
      domChildSwap, insertBefore, insBeforeId, listSwap, kset, kget, khas, kdel,
      DNode.dId, setAttr, appendNew, render_succ, renderList_succ, renderAcc,
      renderStep]
  · rfl

/-- C4 (amended).  When the old child and the new child at a position differ in
kind, tag, or function reference, the keyed-list differ does replace the
render-target child with a freshly rendered node — the new node's identity is
at or above the allocation watermark, so it is distinct from every
pre-existing node — but, contrary to the original claim, the replaced
element's listener-lifetime token is NOT invalidated: the replacement step
appends no abort effect whatsoever to the trace. -/
theorem c4_replacement_fresh_no_abort
    {env : CompEnv} {fuel : Nat} {oc nc : VNode} {pid : Nat} {pt : String}
    {pa psty : List (String × String)} {pv : String} {pcb : Bool}
    {pls : List (String × Value × Nat)} {d0 : DNode} {st : St} {out}
    (hrepl : needsRepl oc nc = true)
    (hko : keyTruthy (keyOf oc) = false)
    (hkn : keyTruthy (keyOf nc) = false)
    (hrun : diffChildren env fuel [oc] [nc]
      (.dElem pid pt pa psty pv pcb pls [d0]) st = some out) :
    ∃ fr nv nd st1,
      render env fr nc st = some (nv, nd, st1) ∧
      out = ([nv], .dElem pid pt pa psty pv pcb pls [nd], st1) ∧
      st.fresh ≤ nd.dId ∧
      ∃ δ, st1.trace = st.trace ++ δ ∧ ∀ e ∈ δ, Eff.isAbort e = false := by
  cases fuel with
  | zero => exact absurd hrun (by simp [diffChildren_zero])
  | succ f0 =>
  rw [diffChildren_succ] at hrun
  dsimp only at hrun
  rw [if_neg (by simp)] at hrun
  rw [if_neg (by simp)] at hrun
  have hra : removeAbsent (buildKM [nc]) [oc] [d0] (buildKM [oc]) 0 =
      some ([oc], [d0], buildKM [oc]) := by
    simp [removeAbsent, hko]
  rw [hra] at hrun
  dsimp only at hrun
  cases f0 with
  | zero => rw [mainLoop_zero] at hrun; exact absurd hrun (by simp)
  | succ f1 =>
  rw [mainLoop_succ] at hrun
  simp only [List.length_cons, List.length_nil, List.getElem?_cons_zero,
    Nat.zero_lt_one, max_self, if_true, hkn, Bool.false_eq_true, if_false] at hrun
  rw [loopRest_eq] at hrun
  simp only [hko, Bool.false_eq_true, if_false, hrepl, if_true] at hrun
  cases hr : render env f1 nc st with
  | none => rw [hr] at hrun; exact absurd hrun (by simp)
  | some r1 =>
  obtain ⟨nv, nd, st1⟩ := r1
  rw [hr] at hrun
  simp only [List.length_cons, List.length_nil, Nat.zero_lt_one, if_true,
    List.set_cons_zero] at hrun
  cases f1 with
  | zero => rw [mainLoop_zero] at hrun; exact absurd hrun (by simp)
  | succ f2 =>
  rw [mainLoop_succ] at hrun
  simp only [List.length_cons, List.length_nil, max_self, trailing,
    Nat.lt_irrefl, if_false, Option.some_inj] at hrun
  simp [trailing] at hrun
  obtain ⟨δ, hδ, habt⟩ := render_trace _ hr
  exact ⟨Nat.succ f2, nv, nd, st1, hr, hrun.symm, (render_fresh _ hr).1,
    δ, hδ, habt⟩

/-- Concrete replacement run for the amended C4: a keyless `div` child with a
bound listener replaced by a keyless `span`; the freshly rendered node has
identity `50` (the allocation watermark) and the trace gains no abort. -/
theorem c4_replacement_fresh_no_abort_witness :
    needsRepl (.vElem "div" [("onClick", Value.vFun 7)] [] 100 none)
        (.vElem "span" [] [] 200 none) = true ∧
    diffChildren env0 5 [.vElem "div" [("onClick", Value.vFun 7)] [] 100 none]
        [.vElem "span" [] [] 200 none]
        (.dElem 10 "div" [] [] "" false []
          [.dElem 0 "div" [] [] "" false [("click", .vFun 7, 100)] []])
        ⟨50, []⟩ =
      some ([.vElem "span" [] [] 200 none],
        .dElem 10 "div" [] [] "" false []
          [.dElem 50 "span" [] [] "" false [] []],
        ⟨51, []⟩) ∧
    (∃ fr nv nd st1,
      render env0 fr (.vElem "span" [] [] 200 none) ⟨50, []⟩ =
        some (nv, nd, st1) ∧
      (([VNode.vElem "span" [] [] 200 none],
        DNode.dElem 10 "div" [] [] "" false []
          [DNode.dElem 50 "span" [] [] "" false [] []],
        (⟨51, []⟩ : St)) : List VNode × DNode × St) =
        ([nv], .dElem 10 "div" [] [] "" false [] [nd], st1) ∧
      (50 : Nat) ≤ nd.dId ∧
      ∃ δ, st1.trace = [] ++ δ ∧ ∀ e ∈ δ, Eff.isAbort e = false) := by
  have hrun : diffChildren env0 5
      [.vElem "div" [("onClick", Value.vFun 7)] [] 100 none]
      [.vElem "span" [] [] 200 none]
      (.dElem 10 "div" [] [] "" false []
        [.dElem 0 "div" [] [] "" false [("click", .vFun 7, 100)] []])
      ⟨50, []⟩ =
      some ([.vElem "span" [] [] 200 none],
        .dElem 10 "div" [] [] "" false []
          [.dElem 50 "span" [] [] "" false [] []],
        ⟨51, []⟩) := by
    simp [diff_succ, diffProps, diffChildren_succ, mainLoop_succ, loopRest_eq,
      removeAbsent, buildKM, buildKM.go, dedupFirst, propKeys, dpStep, propGet,
      strictEq, keyOf, keyTruthy, keyStr, needsRepl, trailing, jsString,
      domChildSwap, insertBefore, insBeforeId, listSwap, kset, kget, khas, kdel,
      DNode.dId, setAttr, appendNew, render_succ, renderList_succ, renderAcc,
      renderStep]
  refine ⟨rfl, hrun, c4_replacement_fresh_no_abort ?_ ?_ ?_ hrun⟩ <;> rfl

theorem dpStep_not_on (eid ctrl' : Nat) (op np : Props) (acc : PAcc) (k : String)
    (h : startsOn k = false) :
    (dpStep eid ctrl' op np acc k).listeners = acc.listeners ∧
    (dpStep eid ctrl' op np acc k).trace = acc.trace := by
  unfold dpStep
  simp only [h, Bool.false_eq_true, if_false]
  split_ifs <;> simp

theorem foldl_dpStep_listeners_trace (eid ctrl' : Nat) (op np : Props) :
    ∀ (ks : List String) (acc : PAcc),
      (ks.foldl (dpStep eid ctrl' op np) acc).listeners =
        acc.listeners ++ bindsOfKeys ks np ctrl' ∧
      (ks.foldl (dpStep eid ctrl' op np) acc).trace =
        acc.trace ++ (bindsOfKeys ks np ctrl').map
          (fun b => Eff.addListener eid b.1 b.2.1 b.2.2)
  | [], acc => by simp [bindsOfKeys]
  | k :: ks, acc => by
      rw [List.foldl_cons, bindsOfKeys_cons]
      by_cases h5 : startsOn k
      · by_cases htr : truthy (propGet np k)
        · obtain ⟨hl, ht⟩ := foldl_dpStep_listeners_trace eid ctrl' op np ks
            (dpStep eid ctrl' op np acc k)
          rw [hl, ht]
          unfold dpStep
          simp [h5, htr]
        · obtain ⟨hl, ht⟩ := foldl_dpStep_listeners_trace eid ctrl' op np ks
            (dpStep eid ctrl' op np acc k)
          rw [hl, ht]
          unfold dpStep
          simp [h5, htr]
      · obtain ⟨hl1, ht1⟩ := dpStep_not_on eid ctrl' op np acc k
          (Bool.not_eq_true _ ▸ Bool.of_not_eq_true h5)
        obtain ⟨hl, ht⟩ := foldl_dpStep_listeners_trace eid ctrl' op np ks
          (dpStep eid ctrl' op np acc k)
        rw [hl, ht, hl1, ht1]
        simp [h5]

theorem bindsOfKeys_tok (ks : List String) (np : Props) (tok : Nat) :
    ∀ l ∈ bindsOfKeys ks np tok, l.2.2 = tok := by
  intro l hl
  unfold bindsOfKeys at hl
  rcases List.mem_filterMap.1 hl with ⟨k, _, hk⟩
  split at hk
  · cases hk
    rfl
  · exact absurd hk (by simp)

theorem mem_bindsOfKeys {ks : List String} {k : String} (np : Props) (tok : Nat)
    (hm : k ∈ ks) (hon : startsOn k = true) (htr : truthy (propGet np k) = true) :
    (evName k, propGet np k, tok) ∈ bindsOfKeys ks np tok := by
  unfold bindsOfKeys
  exact List.mem_filterMap.2 ⟨k, hm, by simp [hon, htr]⟩

/-- C5.  Every property-diff pass over an element invalidates the node's
listener-lifetime token exactly once, first thing — the appended trace is
`abortTok ctrl` followed immediately by `mkTok fresh` and then only
`addListener` effects; the abort count of the whole trace grows by exactly
one.  Every handler key (name starting with `on`) of the key union whose new
value is truthy is bound under the fresh token with the derived native event
name; every binding installed by the pass carries the fresh token; the
surviving old listeners are exactly those whose token differs from the old
controller token (no explicit unbinding — abort-filtered only); and no effect
in the resulting trace aborts the fresh token. -/
theorem c5_diffProps_token_discipline
    {t t2 : String} {op np : Props} {cs cs2 : List VNode} {ctrl ctrl2 : Nat}
    {k k2 : Option String} {eid : Nat} {dt : String}
    {da dsty : List (String × String)} {dv : String} {dc : Bool}
    {dls : List (String × Value × Nat)} {dkids : List DNode} {st : St} {out}
    (hwf : WFSt st) (hctrl : ctrl < st.fresh)
    (hrun : diffProps (.vElem t op cs ctrl k) (.vElem t2 np cs2 ctrl2 k2)
      (.dElem eid dt da dsty dv dc dls dkids) st = some out) :
    ∃ A S V C,
      out = (.vElem t np cs st.fresh k,
        .dElem eid dt A S V C
          (dls.filter (fun l => l.2.2 != ctrl) ++
            bindsOfKeys (dedupFirst (propKeys op ++ propKeys np)) np st.fresh)
          dkids,
        ⟨st.fresh + 1,
          st.trace ++ [.abortTok ctrl, .mkTok st.fresh] ++
            (bindsOfKeys (dedupFirst (propKeys op ++ propKeys np)) np st.fresh).map
              (fun b => Eff.addListener eid b.1 b.2.1 b.2.2)⟩) ∧
      (∀ l ∈ bindsOfKeys (dedupFirst (propKeys op ++ propKeys np)) np st.fresh,
        l.2.2 = st.fresh) ∧
      (∀ kk, kk ∈ propKeys op ++ propKeys np → startsOn kk = true →
        truthy (propGet np kk) = true →
        (evName kk, propGet np kk, st.fresh) ∈
          bindsOfKeys (dedupFirst (propKeys op ++ propKeys np)) np st.fresh) ∧
      out.2.2.trace.filter Eff.isAbort =
        st.trace.filter Eff.isAbort ++ [.abortTok ctrl] ∧
      ∀ e ∈ out.2.2.trace, Eff.abortsTok e st.fresh = false := by
  unfold diffProps at hrun
  dsimp only at hrun
  obtain ⟨hl, ht⟩ := foldl_dpStep_listeners_trace eid st.fresh op np
    (dedupFirst (propKeys op ++ propKeys np))
    ⟨da, dsty, dv, dc, dls.filter (fun l => l.2.2 != ctrl), []⟩
  rw [Option.some_inj] at hrun
  subst hrun
  set acc := List.foldl (dpStep eid st.fresh op np)
    ⟨da, dsty, dv, dc, dls.filter (fun l => l.2.2 != ctrl), []⟩
    (dedupFirst (propKeys op ++ propKeys np)) with hacc
  refine ⟨acc.attrs, acc.style, acc.val, acc.chk, ?_,
    bindsOfKeys_tok _ _ _, ?_, ?_, ?_⟩
  · rw [hl, ht]
    simp
  · intro kk hm hon htr
    exact mem_bindsOfKeys np st.fresh (mem_dedupFirst_of_mem _ _ hm) hon htr
  · dsimp only
    rw [ht]
    simp only [List.nil_append, List.filter_append]
    have h1 : List.filter Eff.isAbort [Eff.abortTok ctrl, Eff.mkTok st.fresh] =
        [Eff.abortTok ctrl] := rfl
    have h2 : List.filter Eff.isAbort
        ((bindsOfKeys (dedupFirst (propKeys op ++ propKeys np)) np st.fresh).map
          (fun b => Eff.addListener eid b.1 b.2.1 b.2.2)) = [] := by
      rw [List.filter_map]
      have : (Eff.isAbort ∘ fun b : String × Value × Nat =>
          Eff.addListener eid b.1 b.2.1 b.2.2) = fun _ => false := by
        funext b
        rfl
      rw [this]
      simp
    rw [h1, h2]
    simp
  · dsimp only
    rw [ht]
    intro e he
    simp only [List.nil_append, List.mem_append, List.mem_map] at he
    rcases he with (he | he) | ⟨b, _, rfl⟩
    · exact hwf st.fresh le_rfl e he
    · simp only [List.mem_cons, List.not_mem_nil, or_false] at he
      rcases he with rfl | rfl
      · simp [Eff.abortsTok, Nat.ne_of_lt hctrl]
      · rfl
    · rfl

/-- Concrete property-diff pass: old controller `3` is aborted once, fresh
token `5` replaces it, and the truthy `onClick` handler is rebound as a
`click` listener under token `5`. -/
theorem c5_diffProps_token_discipline_witness :
    WFSt ⟨5, [Eff.mkTok 3]⟩ ∧ (3 : Nat) < 5 ∧
    diffProps
        (.vElem "div" [("onClick", Value.vFun 7), ("id", Value.vStr "x")] [] 3 none)
        (.vElem "div" [("onClick", Value.vFun 8), ("id", Value.vStr "y")] [] 9 none)
        (.dElem 0 "div" [("id", "x")] [] "" false [("click", .vFun 7, 3)] [])
        ⟨5, [Eff.mkTok 3]⟩ =
      some (.vElem "div" [("onClick", Value.vFun 8), ("id", Value.vStr "y")] [] 5 none,
        .dElem 0 "div" [("id", "y")] [] "" false [("click", .vFun 8, 5)] [],
        ⟨6, [Eff.mkTok 3, .abortTok 3, .mkTok 5,
          .addListener 0 "click" (Value.vFun 8) 5]⟩) ∧
    (∃ A S V C,
      ((VNode.vElem "div" [("onClick", Value.vFun 8), ("id", Value.vStr "y")] [] 5 none,
        DNode.dElem 0 "div" [("id", "y")] [] "" false [("click", .vFun 8, 5)] [],
        (⟨6, [Eff.mkTok 3, .abortTok 3, .mkTok 5,
          .addListener 0 "click" (Value.vFun 8) 5]⟩ : St)) : VNode × DNode × St) =
        (.vElem "div" [("onClick", Value.vFun 8), ("id", Value.vStr "y")] [] 5 none,
          .dElem 0 "div" A S V C
            (List.filter (fun l => l.2.2 != 3) [("click", Value.vFun 7, 3)] ++
              bindsOfKeys
                (dedupFirst (propKeys
                    [("onClick", Value.vFun 7), ("id", Value.vStr "x")] ++
                  propKeys [("onClick", Value.vFun 8), ("id", Value.vStr "y")]))
                [("onClick", Value.vFun 8), ("id", Value.vStr "y")] 5)
            [],
          ⟨6, [Eff.mkTok 3] ++ [.abortTok 3, .mkTok 5] ++
            (bindsOfKeys
                (dedupFirst (propKeys
                    [("onClick", Value.vFun 7), ("id", Value.vStr "x")] ++
                  propKeys [("onClick", Value.vFun 8), ("id", Value.vStr "y")]))
                [("onClick", Value.vFun 8), ("id", Value.vStr "y")] 5).map
              (fun b => Eff.addListener 0 b.1 b.2.1 b.2.2)⟩) ∧
      (∀ l ∈ bindsOfKeys
          (dedupFirst (propKeys [("onClick", Value.vFun 7), ("id", Value.vStr "x")] ++
            propKeys [("onClick", Value.vFun 8), ("id", Value.vStr "y")]))
          [("onClick", Value.vFun 8), ("id", Value.vStr "y")] 5, l.2.2 = 5) ∧
      (∀ kk, kk ∈ propKeys [("onClick", Value.vFun 7), ("id", Value.vStr "x")] ++
          propKeys [("onClick", Value.vFun 8), ("id", Value.vStr "y")] →
        startsOn kk = true →
        truthy (propGet [("onClick", Value.vFun 8), ("id", Value.vStr "y")] kk) = true →
        (evName kk, propGet [("onClick", Value.vFun 8), ("id", Value.vStr "y")] kk, 5) ∈
          bindsOfKeys
            (dedupFirst (propKeys [("onClick", Value.vFun 7), ("id", Value.vStr "x")] ++
              propKeys [("onClick", Value.vFun 8), ("id", Value.vStr "y")]))
            [("onClick", Value.vFun 8), ("id", Value.vStr "y")] 5) ∧
      List.filter Eff.isAbort [Eff.mkTok 3, .abortTok 3, .mkTok 5,
          .addListener 0 "click" (Value.vFun 8) 5] =
        List.filter Eff.isAbort [Eff.mkTok 3] ++ [.abortTok 3] ∧
      ∀ e ∈ [Eff.mkTok 3, Eff.abortTok 3, Eff.mkTok 5,
          Eff.addListener 0 "click" (Value.vFun 8) 5],
        Eff.abortsTok e 5 = false) := by
  have hwf : WFSt ⟨5, [Eff.mkTok 3]⟩ := by
    intro u hu e he
    simp only [List.mem_singleton] at he
    subst he
    rfl
  have hrun : diffProps
      (.vElem "div" [("onClick", Value.vFun 7), ("id", Value.vStr "x")] [] 3 none)
      (.vElem "div" [("onClick", Value.vFun 8), ("id", Value.vStr "y")] [] 9 none)
      (.dElem 0 "div" [("id", "x")] [] "" false [("click", .vFun 7, 3)] [])
      ⟨5, [Eff.mkTok 3]⟩ =
      some (.vElem "div" [("onClick", Value.vFun 8), ("id", Value.vStr "y")] [] 5 none,
        .dElem 0 "div" [("id", "y")] [] "" false [("click", .vFun 8, 5)] [],
        ⟨6, [Eff.mkTok 3, .abortTok 3, .mkTok 5,
          .addListener 0 "click" (Value.vFun 8) 5]⟩) := by
    simp [diffProps, dedupFirst, propKeys, dpStep, propGet, strictEq, jsString,
      setAttr, show startsOn "onClick" = true from by decide,
      show startsOn "id" = false from by decide, truthy, evName]
  exact ⟨hwf, by decide, hrun,
    c5_diffProps_token_discipline hwf (by decide) hrun⟩

/-- C6.  A dispatch made while an element with a non-empty identifier is
focused and a previous tree exists: after update, view and diff, the
container holds the diffed root; the captured identifier was recorded; and
if some element with that identifier exists in the new container it receives
focus (`active` becomes its identity), while if none exists the dispatch
completes without touching focus (`active` unchanged, no error). -/
theorem c6_focus_preservation {M Msg : Type} {env : CompEnv} {fuel : Nat}
    {view : M → VNode} {update : M → Msg → M} {w : World M} {msg : Msg}
    {prev : VNode} {prevEl e : DNode} {nid : Nat} {w' : World M}
    (hprev : w.previous = some prev) (hpe : w.previousElement = some prevEl)
    (hact : w.active = some nid)
    (hfind : findNodeList nid w.container = some e)
    (hid : idAttr e ≠ "")
    (hrun : dispatch env fuel view update w msg = some w') :
    ∃ prev' el' st',
      diff env fuel prev (view (update w.model msg)) prevEl w.st =
        some (prev', el', st') ∧
      w'.previous = some prev' ∧ w'.previousElement = some el' ∧
      w'.container = [el'] ∧ w'.st = st' ∧
      w'.focusedElementId = some (idAttr e) ∧
      (match getById (idAttr e) [el'] with
       | some e2 => w'.active = some e2.dId
       | none => w'.active = w.active) := by
  unfold dispatch at hrun
  rw [hact] at hrun
  dsimp only at hrun
  rw [hfind] at hrun
  dsimp only at hrun
  unfold renderView at hrun
  dsimp only at hrun
  rw [hprev, hpe] at hrun
  dsimp only at hrun
  cases hd : diff env fuel prev (view (update w.model msg)) prevEl w.st with
  | none => rw [hd] at hrun; exact absurd hrun (by simp)
  | some r =>
  obtain ⟨prev', el', st'⟩ := r
  rw [hd] at hrun
  dsimp only at hrun
  rw [if_pos (bne_iff_ne.2 hid)] at hrun
  cases hg : getById (idAttr e) [el'] with
  | some e2 =>
      rw [hg] at hrun
      rw [Option.some_inj] at hrun
      subst hrun
      exact ⟨prev', el', st', rfl, rfl, rfl, rfl, rfl, rfl, by rw [hg]⟩
  | none =>
      rw [hg] at hrun
      rw [Option.some_inj] at hrun
      subst hrun
      exact ⟨prev', el', st', rfl, rfl, rfl, rfl, rfl, rfl, by
        rw [hg]
        exact hact.symm⟩


/-- A two-state view used for the concrete focus-preservation run: the
`input` element with identifier `"input"` moves from child position 0 to
child position 1 between the two states. -/
def c6view : Nat → VNode := fun m =>
  if m == 0 then
    .vElem "div" [] [.vElem "input" [("id", Value.vStr "input")] [] 21 none] 20 none
  else
    .vElem "div" []
      [.vElem "span" [] [] 22 none,
        .vElem "input" [("id", Value.vStr "input")] [] 23 none] 24 none

/-- The world before the concrete focus-preservation dispatch. -/
def c6w : World Nat :=
  { model := 0, previous := some (c6view 0),
    previousElement := some (.dElem 0 "div" [] [] "" false []
      [.dElem 1 "input" [("id", "input")] [] "" false [] []]),
    container := [.dElem 0 "div" [] [] "" false []
      [.dElem 1 "input" [("id", "input")] [] "" false [] []]],
    focusedElementId := none, active := some 1, st := ⟨2, []⟩ }

/-- The world after the concrete focus-preservation dispatch. -/
def c6w2 : World Nat :=
  { model := 1,
    previous := some (.vElem "div" []
      [.vElem "span" [] [] 22 none,
        .vElem "input" [("id", Value.vStr "input")] [] 23 none] 2 none),
    previousElement := some (.dElem 0 "div" [] [] "" false []
      [.dElem 3 "span" [] [] "" false [] [],
        .dElem 4 "input" [("id", "input")] [] "" false [] []]),
    container := [.dElem 0 "div" [] [] "" false []
      [.dElem 3 "span" [] [] "" false [] [],
        .dElem 4 "input" [("id", "input")] [] "" false [] []]],
    focusedElementId := some "input", active := some 4,
    st := ⟨5, [.abortTok 20, .mkTok 2]⟩ }

/-- Concrete dispatch while the `input` element (identity 1) is focused: the
new tree keeps an element with identifier `"input"` at a different position;
after the cycle the container holds the diffed root and focus is restored to
the identifier-equivalent element (now identity 4). -/
theorem c6_focus_preservation_witness :
    c6w.previous = some (c6view 0) ∧
    findNodeList 1 c6w.container =
      some (.dElem 1 "input" [("id", "input")] [] "" false [] []) ∧
    idAttr (DNode.dElem 1 "input" [("id", "input")] [] "" false [] []) ≠ "" ∧
    dispatch env0 10 c6view (fun _ msg => msg) c6w 1 = some c6w2 ∧
    (∃ prev2 el2 st2,
      diff env0 10 (c6view 0) (c6view 1)
          (.dElem 0 "div" [] [] "" false []
            [.dElem 1 "input" [("id", "input")] [] "" false [] []]) ⟨2, []⟩ =
        some (prev2, el2, st2) ∧
      c6w2.previous = some prev2 ∧
      c6w2.previousElement = some el2 ∧
      c6w2.container = [el2] ∧
      c6w2.st = st2 ∧
      c6w2.focusedElementId =
        some (idAttr (DNode.dElem 1 "input" [("id", "input")] [] "" false [] [])) ∧
      (match getById
          (idAttr (DNode.dElem 1 "input" [("id", "input")] [] "" false [] []))
          [el2] with
       | some e2 => c6w2.active = some e2.dId
       | none => c6w2.active = c6w.active)) := by
  have hrun : dispatch env0 10 c6view (fun _ msg => msg) c6w 1 = some c6w2 := by
    simp [dispatch, renderView, c6w, c6w2, findNodeList, findNode,
      findNode.goKids, idAttr, attrLookup, getById, getByIdNode,
      getByIdNode.goKids, c6view, truthy, evName,
      show startsOn "id" = false from by decide,
      diff_succ, diffProps, diffChildren_succ, mainLoop_succ, loopRest_eq,
      removeAbsent, buildKM, buildKM.go, dedupFirst, propKeys, dpStep, propGet,
      strictEq, keyOf, keyTruthy, keyStr, needsRepl, trailing, jsString,
      domChildSwap, insertBefore, insBeforeId, listSwap, kset, kget, khas, kdel,
      DNode.dId, setAttr, appendNew, render_succ, renderList_succ, renderAcc,
      renderStep]
  refine ⟨rfl, rfl, by decide, hrun, ?_⟩
  refine @c6_focus_preservation Nat Nat env0 10 c6view (fun _ msg => msg) c6w 1
      (c6view 0)
      (.dElem 0 "div" [] [] "" false []
        [.dElem 1 "input" [("id", "input")] [] "" false [] []])
      (.dElem 1 "input" [("id", "input")] [] "" false [] []) 1 c6w2
      ?_ ?_ ?_ ?_ ?_ hrun <;>
    first
      | rfl
      | decide

theorem mem_propKeys_of_propGet_ne {p : Props} {k : String}
    (h : propGet p k ≠ .vUndef) : k ∈ propKeys p := by
  unfold propGet at h
  cases hf : p.find? (fun e => e.1 == k) with
  | none => rw [hf] at h; exact absurd rfl h
  | some e =>
      have hm := List.mem_of_find?_eq_some hf
      have hk := List.find?_some hf
      have : e.1 = k := beq_iff_eq.1 hk
      subst this
      exact List.mem_map_of_mem Prod.fst hm

theorem dpStep_style_other (eid ctrl' : Nat) (op np : Props) (acc : PAcc)
    {k : String} (h : k ≠ "style") :
    (dpStep eid ctrl' op np acc k).style = acc.style := by
  unfold dpStep
  have hb : (k == "style") = false := beq_eq_false_iff_ne.2 h
  simp only [hb, Bool.false_eq_true, if_false]
  split_ifs <;> rfl

theorem foldl_dpStep_style_no (eid ctrl' : Nat) (op np : Props) :
    ∀ (ks : List String) (acc : PAcc), "style" ∉ ks →
      (ks.foldl (dpStep eid ctrl' op np) acc).style = acc.style
  | [], acc, _ => rfl
  | k :: ks, acc, h => by
      rw [List.foldl_cons]
      have h1 : k ≠ "style" := fun hh => h (hh ▸ List.mem_cons_self k ks)
      rw [foldl_dpStep_style_no eid ctrl' op np ks _
        (fun hh => h (List.mem_cons_of_mem _ hh))]
      exact dpStep_style_other eid ctrl' op np acc h1

/-- C7.  When both props carry style objects and the structural-equality
check reports them different, the new style declarations are merged onto the
render-target style with assignment semantics: looking up any declaration
name afterwards yields the last new declaration of that name when one
exists, and otherwise the previous render-target value — a declaration
present only in the old style map is never cleared.  When the check reports
the style objects equal, the render-target style is left untouched. -/
theorem c7_style_merge
    {t t2 : String} {op np : Props} {cs cs2 : List VNode} {ctrl ctrl2 : Nat}
    {k k2 : Option String} {eid : Nat} {dt : String}
    {da dsty : List (String × String)} {dv : String} {dc : Bool}
    {dls : List (String × Value × Nat)} {dkids : List DNode} {st : St} {out}
    {r1 r2 : Nat} {ds1 ds2 : List (String × String)}
    (hov : propGet op "style" = .vStyle r1 ds1)
    (hnv : propGet np "style" = .vStyle r2 ds2)
    (hrun : diffProps (.vElem t op cs ctrl k) (.vElem t2 np cs2 ctrl2 k2)
      (.dElem eid dt da dsty dv dc dls dkids) st = some out) :
    (jsonValEq (Value.vStyle r1 ds1) (Value.vStyle r2 ds2) = false →
      ∀ n, attrLookup out.2.1.styleOf n =
        match lastDecl ds2 n with
        | some v => some v
        | none => attrLookup dsty n) ∧
    (jsonValEq (Value.vStyle r1 ds1) (Value.vStyle r2 ds2) = true →
      out.2.1.styleOf = dsty) := by
  unfold diffProps at hrun
  dsimp only at hrun
  rw [Option.some_inj] at hrun
  subst hrun
  have hmem : "style" ∈ dedupFirst (propKeys op ++ propKeys np) :=
    mem_dedupFirst_of_mem _ _ (List.mem_append_left _
      (mem_propKeys_of_propGet_ne (by rw [hov]; simp)))
  obtain ⟨l1, l2, hsplit⟩ := List.append_of_mem hmem
  have hnd : (l1 ++ "style" :: l2).Nodup := hsplit ▸ dedupFirst_nodup _
  have hno2 : "style" ∉ l2 :=
    (List.nodup_cons.1 (List.Nodup.of_append_right hnd)).1
  have hno1 : "style" ∉ l1 := fun hmem1 =>
    (List.disjoint_of_nodup_append hnd) hmem1 (List.mem_cons_self _ _)
  have hl1 : (List.foldl (dpStep eid st.fresh op np)
      ⟨da, dsty, dv, dc, dls.filter (fun l => l.2.2 != ctrl), []⟩ l1).style =
      dsty :=
    foldl_dpStep_style_no eid st.fresh op np l1 _ hno1
  have hsty : (List.foldl (dpStep eid st.fresh op np)
      ⟨da, dsty, dv, dc, dls.filter (fun l => l.2.2 != ctrl), []⟩
      (dedupFirst (propKeys op ++ propKeys np))).style =
      (if jsonValEq (Value.vStyle r1 ds1) (Value.vStyle r2 ds2) then dsty
       else assignDecls dsty ds2) := by
    rw [hsplit, List.foldl_append, List.foldl_cons,
      foldl_dpStep_style_no eid st.fresh op np l2 _ hno2]
    by_cases hj : jsonValEq (Value.vStyle r1 ds1) (Value.vStyle r2 ds2)
    · simp [dpStep, hov, hnv, hj, hl1,
        show startsOn "style" = false from by decide]
    · simp [dpStep, hov, hnv, hj, hl1, objAssignStyle,
        show startsOn "style" = false from by decide]
  constructor
  · intro hj n
    dsimp only [DNode.styleOf]
    rw [hsty, if_neg (by simp [hj])]
    exact attrLookup_assignDecls dsty ds2 n
  · intro hj
    dsimp only [DNode.styleOf]
    rw [hsty, if_pos hj]

/-- Concrete style merge: old style `{color: red, margin: 4px}` diffed
against `{color: blue}`; the structural check reports a difference, `color`
is overwritten, and `margin` — absent from the new style map — keeps its
render-target value instead of being cleared. -/
theorem c7_style_merge_witness :
    propGet [("style", Value.vStyle 1 [("color", "red"), ("margin", "4px")])]
      "style" = .vStyle 1 [("color", "red"), ("margin", "4px")] ∧
    propGet [("style", Value.vStyle 2 [("color", "blue")])] "style" =
      .vStyle 2 [("color", "blue")] ∧
    diffProps
        (.vElem "div" [("style", .vStyle 1 [("color", "red"), ("margin", "4px")])]
          [] 3 none)
        (.vElem "div" [("style", .vStyle 2 [("color", "blue")])] [] 9 none)
        (.dElem 0 "div" [] [("color", "red"), ("margin", "4px")] "" false [] [])
        ⟨5, []⟩ =
      some (.vElem "div" [("style", .vStyle 2 [("color", "blue")])] [] 5 none,
        .dElem 0 "div" [] [("color", "blue"), ("margin", "4px")] "" false [] [],
        ⟨6, [.abortTok 3, .mkTok 5]⟩) ∧
    ((jsonValEq (Value.vStyle 1 [("color", "red"), ("margin", "4px")])
        (Value.vStyle 2 [("color", "blue")]) = false →
      ∀ n, attrLookup
          (DNode.styleOf (.dElem 0 "div" [] [("color", "blue"), ("margin", "4px")]
            "" false [] [])) n =
        match lastDecl [("color", "blue")] n with
        | some v => some v
        | none => attrLookup [("color", "red"), ("margin", "4px")] n) ∧
     (jsonValEq (Value.vStyle 1 [("color", "red"), ("margin", "4px")])
        (Value.vStyle 2 [("color", "blue")]) = true →
      DNode.styleOf (.dElem 0 "div" [] [("color", "blue"), ("margin", "4px")]
        "" false [] []) = [("color", "red"), ("margin", "4px")])) := by
  have hrun : diffProps
      (.vElem "div" [("style", .vStyle 1 [("color", "red"), ("margin", "4px")])]
        [] 3 none)
      (.vElem "div" [("style", .vStyle 2 [("color", "blue")])] [] 9 none)
      (.dElem 0 "div" [] [("color", "red"), ("margin", "4px")] "" false [] [])
      ⟨5, []⟩ =
      some (.vElem "div" [("style", .vStyle 2 [("color", "blue")])] [] 5 none,
        .dElem 0 "div" [] [("color", "blue"), ("margin", "4px")] "" false [] [],
        ⟨6, [.abortTok 3, .mkTok 5]⟩) := by
    simp [diffProps, dedupFirst, propKeys, dpStep, propGet, strictEq, jsString,
      setAttr, jsonValEq, toJson, toJson.fieldsJson, jsonEq, jsonEq.fieldsEq,
      objAssignStyle, assignDecls,
      show startsOn "style" = false from by decide]
  refine ⟨rfl, rfl, hrun, c7_style_merge ?_ ?_ hrun⟩ <;> rfl

theorem strictEq_vUndef_right {v : Value} (h : v ≠ .vUndef) :
    strictEq v .vUndef = false := by
  cases v <;> first | exact absurd rfl h | rfl

theorem dpStep_attr_keep (eid ctrl' : Nat) (op np : Props) (acc : PAcc)
    {kp target : String} (h1 : kp ≠ target)
    (h2 : kp = "className" → target ≠ "class") :
    attrLookup (dpStep eid ctrl' op np acc kp).attrs target =
      attrLookup acc.attrs target := by
  unfold dpStep
  by_cases hon : startsOn kp = true
  · simp only [hon, if_true]
    split_ifs <;> rfl
  · simp only [Bool.not_eq_true] at hon
    simp only [hon, Bool.false_eq_true, if_false]
    by_cases hcn : kp = "className"
    · have hcnb : (kp == "className") = true := beq_iff_eq.2 hcn
      simp only [hcnb, if_true]
      have htc : target ≠ "class" := h2 hcn
      split_ifs
      · rfl
      · exact attrLookup_setAttr_ne _ _ _ _ htc
    · have hcnb : (kp == "className") = false := beq_eq_false_iff_ne.2 hcn
      simp only [hcnb, Bool.false_eq_true, if_false]
      by_cases hst : kp = "style"
      · have hstb : (kp == "style") = true := beq_iff_eq.2 hst
        simp only [hstb, if_true]
        split_ifs <;> rfl
      · have hstb : (kp == "style") = false := beq_eq_false_iff_ne.2 hst
        simp only [hstb, Bool.false_eq_true, if_false]
        split_ifs <;>
          first
            | rfl
            | exact attrLookup_setAttr_ne _ _ _ _ (Ne.symm h1)

theorem foldl_dpStep_attr_keep (eid ctrl' : Nat) (op np : Props)
    (target : String) :
    ∀ (ks : List String) (acc : PAcc),
      (∀ kp ∈ ks, kp ≠ target ∧ (kp = "className" → target ≠ "class")) →
      attrLookup (ks.foldl (dpStep eid ctrl' op np) acc).attrs target =
        attrLookup acc.attrs target
  | [], acc, _ => rfl
  | kp :: ks, acc, h => by
      rw [List.foldl_cons,
        foldl_dpStep_attr_keep eid ctrl' op np target ks _
          (fun q hq => h q (List.mem_cons_of_mem _ hq))]
      obtain ⟨h1, h2⟩ := h kp (List.mem_cons_self _ _)
      exact dpStep_attr_keep eid ctrl' op np acc h1 h2

/-- C10.  A key classified as a generic attribute or as `className` that is
present in the old props but absent from the new props: the comparison sees
`old !== undefined`, and the pass writes the coerced string `"undefined"`
through `setAttribute`, so the corresponding attribute (the `class`
attribute for `className`) remains on the render-target element with value
`"undefined"` instead of being removed. -/
theorem c10_removed_attr_undefined
    {t t2 : String} {op np : Props} {cs cs2 : List VNode} {ctrl ctrl2 : Nat}
    {k k2 : Option String} {eid : Nat} {dt : String}
    {da dsty : List (String × String)} {dv : String} {dc : Bool}
    {dls : List (String × Value × Nat)} {dkids : List DNode} {st : St} {out}
    {kk target : String}
    (hcase :
      (kk ≠ "className" ∧ startsOn kk = false ∧ kk ≠ "style" ∧ kk ≠ "checked" ∧
        kk ≠ "value" ∧ target = kk ∧
        (kk = "class" → "className" ∉ propKeys op ++ propKeys np)) ∨
      (kk = "className" ∧ target = "class" ∧
        "class" ∉ propKeys op ++ propKeys np))
    (hold : propGet op kk ≠ .vUndef)
    (hnew : propGet np kk = .vUndef)
    (hrun : diffProps (.vElem t op cs ctrl k) (.vElem t2 np cs2 ctrl2 k2)
      (.dElem eid dt da dsty dv dc dls dkids) st = some out) :
    attrLookup out.2.1.attrsOf target = some "undefined" := by
  unfold diffProps at hrun
  dsimp only at hrun
  rw [Option.some_inj] at hrun
  subst hrun
  dsimp only [DNode.attrsOf]
  have hmem : kk ∈ dedupFirst (propKeys op ++ propKeys np) :=
    mem_dedupFirst_of_mem _ _ (List.mem_append_left _
      (mem_propKeys_of_propGet_ne hold))
  obtain ⟨l1, l2, hsplit⟩ := List.append_of_mem hmem
  have hnd : (l1 ++ kk :: l2).Nodup := hsplit ▸ dedupFirst_nodup _
  have hno2 : kk ∉ l2 :=
    (List.nodup_cons.1 (List.Nodup.of_append_right hnd)).1
  have hsub : ∀ kp ∈ l2, kp ∈ propKeys op ++ propKeys np := by
    intro kp hm
    refine mem_of_dedupFirst _ _ ?_
    rw [hsplit]
    exact List.mem_append_right _ (List.mem_cons_of_mem _ hm)
  rw [hsplit, List.foldl_append, List.foldl_cons]
  rcases hcase with ⟨hncn, hon, hnst, hnchk, hnval, htg, hcls⟩ |
    ⟨hcn, htg, hcls⟩
  · subst htg
    rw [foldl_dpStep_attr_keep eid st.fresh op np target l2 _ ?_]
    · unfold dpStep
      rw [hnew]
      simp [hon, beq_eq_false_iff_ne.2 hncn, beq_eq_false_iff_ne.2 hnst,
        strictEq_vUndef_right hold, beq_eq_false_iff_ne.2 hnchk,
        beq_eq_false_iff_ne.2 hnval, jsString, attrLookup_setAttr_self]
    · intro kp hm
      refine ⟨fun hh => hno2 (hh ▸ hm), fun hcn2 hkc => ?_⟩
      exact hcls hkc (hcn2 ▸ hsub kp hm)
  · subst hcn
    subst htg
    rw [foldl_dpStep_attr_keep eid st.fresh op np "class" l2 _ ?_]
    · unfold dpStep
      rw [hnew]
      simp [show startsOn "className" = false from by decide,
        strictEq_vUndef_right hold, jsString, attrLookup_setAttr_self]
    · intro kp hm
      exact ⟨fun hh => hcls (hh ▸ hsub kp hm),
        fun hcn2 => absurd (hcn2 ▸ hm) hno2⟩

/-- Concrete removed-attribute run: `title` (generic) and `className` are
both dropped from the props; after the pass the render target keeps
`title="undefined"` (and `class="undefined"`) instead of losing the
attributes. -/
theorem c10_removed_attr_undefined_witness :
    propGet [("title", Value.vStr "hi"), ("className", Value.vStr "box")]
      "title" ≠ Value.vUndef ∧
    propGet ([] : Props) "title" = Value.vUndef ∧
    diffProps
        (.vElem "div" [("title", .vStr "hi"), ("className", .vStr "box")] [] 3 none)
        (.vElem "div" [] [] 9 none)
        (.dElem 0 "div" [("title", "hi"), ("class", "box")] [] "" false [] [])
        ⟨5, []⟩ =
      some (.vElem "div" [] [] 5 none,
        .dElem 0 "div" [("title", "undefined"), ("class", "undefined")] []
          "" false [] [],
        ⟨6, [.abortTok 3, .mkTok 5]⟩) ∧
    attrLookup
      (DNode.attrsOf (.dElem 0 "div" [("title", "undefined"), ("class", "undefined")]
        [] "" false [] [])) "title" = some "undefined" := by
  have hold : propGet [("title", Value.vStr "hi"), ("className", Value.vStr "box")]
      "title" ≠ Value.vUndef := by
    simp [propGet]
  have hrun : diffProps
      (.vElem "div" [("title", .vStr "hi"), ("className", .vStr "box")] [] 3 none)
      (.vElem "div" [] [] 9 none)
      (.dElem 0 "div" [("title", "hi"), ("class", "box")] [] "" false [] [])
      ⟨5, []⟩ =
      some (.vElem "div" [] [] 5 none,
        .dElem 0 "div" [("title", "undefined"), ("class", "undefined")] []
          "" false [] [],
        ⟨6, [.abortTok 3, .mkTok 5]⟩) := by
    simp [diffProps, dedupFirst, propKeys, dpStep, propGet, strictEq, jsString,
      setAttr,
      show startsOn "title" = false from by decide,
      show startsOn "className" = false from by decide]
  refine ⟨hold, rfl, hrun,
    c10_removed_attr_undefined (Or.inl ?_) hold ?_ hrun⟩
  case refine_2 => rfl
  refine ⟨by decide, by decide, by decide, by decide, by decide, rfl, ?_⟩
  intro h
  exact absurd h (by decide)

end Eldora